import Mathlib

/-!
Verification of the goal-tracker tree mutation engine.

The program keeps each Goal's plan as a forest of Step nodes (arbitrarily
nested children) and mutates it with pure recursive helpers
(`stepHelpers` in the database module): find, add, update, delete,
toggle-completion (cascading), duplicate-subtree, reorder-siblings,
move-to-parent, plus a goal-list reorder. This file embeds those helpers
and the relevant facade wrappers (the React context functions that
compute orders and look up the step before calling the helpers), then
proves or refutes the stated properties.

Conventions of the embedding:
* JavaScript `Date.now()` is an injected parameter `now : Int`.
* `generateId()` is an injected supply: a single `newId : String` where one
  id is drawn, or `ids : Nat -> String` with a counter threaded in document
  order where the source draws one id per copied node.
* Optional fields (`description?`, `parentId?`, optional arguments) are
  `Option String`.  The source only ever passes `undefined` or a real id
  here, so the JavaScript falsiness of `""` does not arise.
* JavaScript `[...]`-spread list rebuilding is written as explicit
  cons-recursion; `xs.map(f)` over a sibling list becomes the
  corresponding cons equations, which evaluate identically.
* `Math.max(0, ...xs)` is `xs.foldl max 0`; `Math.max(...xs)` on a
  guarded-nonempty list is folded from its head.
* Step `order` values are JavaScript numbers that stay integral here, so
  they are embedded as `Int` (the facade uses `-1` before `+1`).
-/

/-- A node of a goal's step tree (interface `Step` in the database module).
`Step` is recursive through `children`, so it is an inductive with explicit
projections below. -/
inductive Step where
  | mk (id : String) (title : String) (description : Option String)
       (completed : Bool) (parentId : Option String)
       (children : List Step) (order : Int)

def Step.id : Step → String
  | .mk i _ _ _ _ _ _ => i

def Step.title : Step → String
  | .mk _ t _ _ _ _ _ => t

def Step.description : Step → Option String
  | .mk _ _ d _ _ _ _ => d

def Step.completed : Step → Bool
  | .mk _ _ _ c _ _ _ => c

def Step.parentId : Step → Option String
  | .mk _ _ _ _ p _ _ => p

def Step.children : Step → List Step
  | .mk _ _ _ _ _ cs _ => cs

def Step.order : Step → Int
  | .mk _ _ _ _ _ _ o => o


/-- `{...s, children: cs}` -/
def Step.withChildren : Step → List Step → Step
  | .mk i t d c p _ o, cs => .mk i t d c p cs o

/-- `{...s, order: o}` -/
def Step.withOrder : Step → Int → Step
  | .mk i t d c p cs _, o => .mk i t d c p cs o

/-- `{...s, parentId: p}` -/
def Step.withParentId : Step → Option String → Step
  | .mk i t d c _ cs o, p => .mk i t d c p cs o


/-- Interface `Goal` in the database module. -/
structure Goal where
  id : String
  title : String
  description : Option String
  createdAt : Int
  updatedAt : Int
  steps : List Step
  order : Int

/-- `stepHelpers.findStep`'s inner `findStepRecursive`: depth-first
pre-order search; checks the node, then (when it has children) its
subtree, then the rest of the sibling list. -/
def findStepList : List Step → String → Option Step
  | [], _ => none
  | .mk i t d c p cs o :: rest, sid =>
    if i == sid then some (.mk i t d c p cs o)
    else
      match findStepList cs sid with
      | some found => some found
      | none => findStepList rest sid

/-- `stepHelpers.findStep(goal, stepId)` -/
def findStep (goal : Goal) (stepId : String) : Option Step :=
  findStepList goal.steps stepId

/-- `stepHelpers.addStep`'s inner `addStepRecursive`: `steps.map(s => ...)`,
appending the new step to the children of the node whose id matches
`parentStepId`, recursing into non-empty children otherwise. -/
def addStepRecursive (parentStepId : String) (newStep : Step) : List Step → List Step
  | [] => []
  | .mk i t d c p cs o :: rest =>
    (if i == parentStepId then Step.mk i t d c p (cs ++ [newStep]) o
     else if cs.length > 0 then Step.mk i t d c p (addStepRecursive parentStepId newStep cs) o
     else Step.mk i t d c p cs o) :: addStepRecursive parentStepId newStep rest

/-- `stepHelpers.addStep(goal, step, parentStepId?)`.  Always rebuilds the
goal with `updatedAt: Date.now()`; appends at root when `parentStepId` is
absent, otherwise runs `addStepRecursive` (which changes nothing when the
parent id is not found). -/
def addStep (goal : Goal) (step : Step) (parentStepId : Option String) (now : Int) : Goal :=
  match parentStepId with
  | none => { goal with updatedAt := now, steps := goal.steps ++ [step] }
  | some pid => { goal with updatedAt := now, steps := addStepRecursive pid step goal.steps }

/-- `stepHelpers.updateStep`'s inner `updateStepRecursive`: replaces the
node whose id equals `updatedStep.id` by `{...updatedStep, children: s.children}`,
recursing into non-empty children otherwise. -/
def updateStepRecursive (updatedStep : Step) : List Step → List Step
  | [] => []
  | .mk i t d c p cs o :: rest =>
    (if i == updatedStep.id then updatedStep.withChildren cs
     else if cs.length > 0 then Step.mk i t d c p (updateStepRecursive updatedStep cs) o
     else Step.mk i t d c p cs o) :: updateStepRecursive updatedStep rest

/-- `stepHelpers.updateStep(goal, updatedStep)` -/
def updateStep (goal : Goal) (updatedStep : Step) (now : Int) : Goal :=
  { goal with updatedAt := now, steps := updateStepRecursive updatedStep goal.steps }

/-- `stepHelpers.deleteStep`'s inner `deleteStepRecursive`:
`steps.filter(s => s.id !== stepId).map(s => ({...s, children: rec(s.children)}))`. -/
def deleteStepRecursive (stepId : String) : List Step → List Step
  | [] => []
  | .mk i t d c p cs o :: rest =>
    if i == stepId then deleteStepRecursive stepId rest
    else Step.mk i t d c p (deleteStepRecursive stepId cs) o :: deleteStepRecursive stepId rest

/-- `stepHelpers.deleteStep(goal, stepId)` -/
def deleteStep (goal : Goal) (stepId : String) (now : Int) : Goal :=
  { goal with updatedAt := now, steps := deleteStepRecursive stepId goal.steps }

/-- `toggleCompletionRecursiveForce(steps, status)`: force `completed := status`
on every node of the forest. -/
def toggleForce (status : Bool) : List Step → List Step
  | [] => []
  | .mk i t d _ p cs o :: rest =>
    Step.mk i t d status p (toggleForce status cs) o :: toggleForce status rest

/-- `toggleCompletionRecursive(steps)`: on the matched node flip `completed`
and force the new status on all children (the source writes the first level
of that forcing as an inline `map` whose body is exactly
`toggleCompletionRecursiveForce`); otherwise recurse into non-empty children. -/
def toggleCompletionRecursive (stepId : String) : List Step → List Step
  | [] => []
  | .mk i t d c p cs o :: rest =>
    (if i == stepId then Step.mk i t d (!c) p (toggleForce (!c) cs) o
     else if cs.length > 0 then Step.mk i t d c p (toggleCompletionRecursive stepId cs) o
     else Step.mk i t d c p cs o) :: toggleCompletionRecursive stepId rest

/-- `stepHelpers.toggleStepCompletion(goal, stepId)` -/
def toggleStepCompletion (goal : Goal) (stepId : String) (now : Int) : Goal :=
  { goal with updatedAt := now, steps := toggleCompletionRecursive stepId goal.steps }

mutual
/-- `duplicateStepRecursive(step)` inside `stepHelpers.duplicateStep`:
`{...step, id: generateId(), title: step.title + " (Copy)", children: step.children.map(duplicateStepRecursive)}`.
`generateId()` is the injected supply `ids`; the counter is threaded in the
source's evaluation order (node id first, then the children left to right). -/
def duplicateStepRecursive (ids : Nat → String) : Step → Nat → Step × Nat
  | .mk _ t d c p cs o, n =>
    let r := duplicateChildren ids cs (n + 1)
    (.mk (ids n) (t ++ " (Copy)") d c p r.1 o, r.2)

/-- `step.children.map(duplicateStepRecursive)` with the id counter threaded. -/
def duplicateChildren (ids : Nat → String) : List Step → Nat → List Step × Nat
  | [], n => ([], n)
  | s :: rest, n =>
    let r := duplicateStepRecursive ids s n
    let rr := duplicateChildren ids rest r.2
    (r.1 :: rr.1, rr.2)
end

/-- `findMaxOrder(steps, parentId?)` inside `stepHelpers.duplicateStep`:
`Math.max(0, ...steps.filter(s => s.parentId === parentId).map(s => s.order))`. -/
def findMaxOrder (steps : List Step) (parentId : Option String) : Int :=
  ((steps.filter (fun s => s.parentId == parentId)).map Step.order).foldl max 0

/-- `addDuplicatedStepToParent(steps)` inside `stepHelpers.duplicateStep`:
appends the duplicate (with `order` set to `findMaxOrder(s.children, s.id) + 1`,
which the source assigns by mutation just before the spread) to the children
of the node whose id equals the duplicated step's `parentId`. -/
def addDuplicatedStepToParent (parentId : String) (dup : Step) : List Step → List Step
  | [] => []
  | .mk i t d c p cs o :: rest =>
    (if i == parentId then
        Step.mk i t d c p (cs ++ [dup.withOrder (findMaxOrder cs (some i) + 1)]) o
     else if cs.length > 0 then
        Step.mk i t d c p (addDuplicatedStepToParent parentId dup cs) o
     else Step.mk i t d c p cs o) :: addDuplicatedStepToParent parentId dup rest

/-- `stepHelpers.duplicateStep(goal, stepId)`.  Returns the original goal
when the source step is not found; otherwise deep-copies it and inserts the
copy at root level or under `stepToDuplicate.parentId`. -/
def duplicateStep (goal : Goal) (stepId : String) (ids : Nat → String) (now : Int) : Goal :=
  match findStep goal stepId with
  | none => goal
  | some stepToDuplicate =>
    let duplicated := (duplicateStepRecursive ids stepToDuplicate 0).1
    match stepToDuplicate.parentId with
    | none =>
      { goal with
          updatedAt := now,
          steps := goal.steps ++ [duplicated.withOrder (findMaxOrder goal.steps none + 1)] }
    | some pid =>
      { goal with
          updatedAt := now,
          steps := addDuplicatedStepToParent pid duplicated goal.steps }

/-- JavaScript `arr.splice(n, 0, a)` as a pure function: inserting past the
end appends. -/
def spliceInsert (n : Nat) (a : α) (l : List α) : List α :=
  l.take n ++ a :: l.drop n

/-- `steps.map((step, index) => ({...step, order: index}))`, starting at `n`. -/
def renumberSteps (n : Int) : List Step → List Step
  | [] => []
  | .mk i t d c p cs _ :: rest => Step.mk i t d c p cs n :: renumberSteps (n + 1) rest

/-- Root-level branch of `reorderStepsAtSameLevel` in `stepHelpers.reorderStep`:
splice the step found by `findIndex` to `newIndex` and renumber the whole
level 0..N-1.  (The `cs[si]?` fallback is unreachable: `findIdx?` indices are
in bounds.) -/
def reorderRootLevel (stepId : String) (newIndex : Nat) (l : List Step) : List Step :=
  match l.findIdx? (fun s => s.id == stepId) with
  | none => l
  | some si =>
    match l[si]? with
    | none => l
    | some moved => renumberSteps 0 (spliceInsert newIndex moved (l.eraseIdx si))

/-- Parent branch of `reorderStepsAtSameLevel`: on the node whose id equals
`parentId`, splice within its children and renumber them 0..N-1; otherwise
recurse into non-empty children. -/
def reorderWithParent (stepId : String) (newIndex : Nat) (parentId : String) :
    List Step → List Step
  | [] => []
  | .mk i t d c p cs o :: rest =>
    (if i == parentId then
        match cs.findIdx? (fun s => s.id == stepId) with
        | none => Step.mk i t d c p cs o
        | some si =>
          match cs[si]? with
          | none => Step.mk i t d c p cs o
          | some moved =>
            Step.mk i t d c p (renumberSteps 0 (spliceInsert newIndex moved (cs.eraseIdx si))) o
     else if cs.length > 0 then
        Step.mk i t d c p (reorderWithParent stepId newIndex parentId cs) o
     else Step.mk i t d c p cs o) :: reorderWithParent stepId newIndex parentId rest

/-- `stepHelpers.reorderStep(goal, stepId, newIndex, parentId?)`.  (The
source also defines a `getSiblingsSteps` helper inside this function but
never calls it; it is dead code and not embedded.) -/
def reorderStep (goal : Goal) (stepId : String) (newIndex : Nat) (parentId : Option String)
    (now : Int) : Goal :=
  match parentId with
  | none => { goal with updatedAt := now, steps := reorderRootLevel stepId newIndex goal.steps }
  | some pid =>
    { goal with updatedAt := now, steps := reorderWithParent stepId newIndex pid goal.steps }

mutual
/-- Number of nodes in a step's subtree (used only to size the fuel of the
embedded `isDescendant`). -/
def stepCountStep : Step → Nat
  | .mk _ _ _ _ _ cs _ => 1 + stepCountList cs

/-- Number of nodes in a forest. -/
def stepCountList : List Step → Nat
  | [] => 0
  | s :: rest => stepCountStep s + stepCountList rest
end

/-- `isDescendant(parentId, potentialChildId)` inside
`stepHelpers.moveStepToParent`: looks the parent up by id in the whole goal
and walks its children, re-looking each child up by id for the recursive
call.  The source recursion is by identifier, not by structure, so the
embedding carries explicit fuel; when the goal's step ids are unique (data
model invariant I1) the recursion depth is at most the number of steps, so
`stepCountList goal.steps + 1` fuel computes exactly the source's value.
(On duplicate ids the source can recurse forever; such inputs are outside
every theorem below.) -/
def isDescendantFuel (goal : Goal) : Nat → String → String → Bool
  | 0, _, _ => false
  | fuel + 1, parentId, potentialChildId =>
    match findStep goal parentId with
    | none => false
    | some parent =>
      parent.children.any fun child =>
        child.id == potentialChildId || isDescendantFuel goal fuel child.id potentialChildId

mutual
/-- `removeStepFromParent(steps, stepId)` inside `stepHelpers.moveStepToParent`:
if any root of the list matches, filter it out; otherwise map over the list,
and for each node either filter its children (when one of them matches) or
recurse. -/
def removeStepFromParent (stepId : String) (l : List Step) : List Step :=
  if l.any (fun s => s.id == stepId) then l.filter (fun s => !(s.id == stepId))
  else removeStepChildrenMap stepId l

/-- The `steps.map(s => ...)` of `removeStepFromParent`'s nested branch. -/
def removeStepChildrenMap (stepId : String) : List Step → List Step
  | [] => []
  | .mk i t d c p cs o :: rest =>
    Step.mk i t d c p
      (if cs.any (fun s => s.id == stepId) then cs.filter (fun s => !(s.id == stepId))
       else removeStepFromParent stepId cs) o
      :: removeStepChildrenMap stepId rest
end

/-- `getMaxOrder(steps, parentId?)` inside `stepHelpers.moveStepToParent`:
at root level `Math.max(0, ...steps.map(s => s.order))`; with a parent id it
looks the parent up in the ORIGINAL goal and takes `Math.max(0, ...)` of its
children's orders (0 when the parent is missing). -/
def getMaxOrder (goal : Goal) (steps : List Step) (parentId : Option String) : Int :=
  match parentId with
  | none => (steps.map Step.order).foldl max 0
  | some pid =>
    match findStep goal pid with
    | some parent => (parent.children.map Step.order).foldl max 0
    | none => 0

/-- `addStepToNewParent(steps)` inside `stepHelpers.moveStepToParent`:
appends the moved step (with `order := getMaxOrder([], s.id) + 1`, assigned
by mutation in the source) to the children of the node whose id equals
`newParentId`; recurses into non-empty children otherwise. -/
def addStepToNewParent (goal : Goal) (newParentId : String) (movedStep : Step) :
    List Step → List Step
  | [] => []
  | .mk i t d c p cs o :: rest =>
    (if i == newParentId then
        Step.mk i t d c p (cs ++ [movedStep.withOrder (getMaxOrder goal [] (some i) + 1)]) o
     else if cs.length > 0 then
        Step.mk i t d c p (addStepToNewParent goal newParentId movedStep cs) o
     else Step.mk i t d c p cs o) :: addStepToNewParent goal newParentId movedStep rest

/-- `stepHelpers.moveStepToParent(goal, stepId, newParentId?)`.  Returns the
original goal when the step is missing or when `newParentId` is a descendant
of `stepId` (the check runs only when `newParentId` is present); otherwise
detaches the step, sets its `parentId`, and re-attaches it at root level or
under `newParentId`. -/
def moveStepToParent (goal : Goal) (stepId : String) (newParentId : Option String)
    (now : Int) : Goal :=
  match findStep goal stepId with
  | none => goal
  | some stepToMove =>
    let illegal :=
      match newParentId with
      | some pid => isDescendantFuel goal (stepCountList goal.steps + 1) stepId pid
      | none => false
    if illegal then goal
    else
      let intermediateSteps := removeStepFromParent stepId goal.steps
      let movedStep := stepToMove.withParentId newParentId
      match newParentId with
      | none =>
        { goal with
            updatedAt := now,
            steps := intermediateSteps ++
              [movedStep.withOrder (getMaxOrder goal intermediateSteps none + 1)] }
      | some pid =>
        { goal with
            updatedAt := now,
            steps := addStepToNewParent goal pid movedStep intermediateSteps }

/-- `goals.map((goal, index) => ({...goal, order: index}))`, starting at `n`. -/
def renumberGoals (n : Int) : List Goal → List Goal
  | [] => []
  | g :: rest => { g with order := n } :: renumberGoals (n + 1) rest

/-- `stepHelpers.reorderGoals(goals, sourceIndex, destinationIndex)`:
splice the goal at `sourceIndex` to `destinationIndex`, then renumber
`order = 0..N-1` by position.  An out-of-range `sourceIndex` is a caller
contract violation (spec section 4.3: undefined result); that branch is
embedded as renumber-only and is excluded by the theorems' bounds
hypotheses. -/
def reorderGoals (goals : List Goal) (sourceIndex destinationIndex : Nat) : List Goal :=
  match goals[sourceIndex]? with
  | none => renumberGoals 0 goals
  | some moved =>
    renumberGoals 0 (spliceInsert destinationIndex moved (goals.eraseIdx sourceIndex))

/-- `Math.max(...xs)` on a nonempty list, folded from its head. -/
def jsMaxOf (o : Int) (os : List Int) : Int := os.foldl max o

/-- The `addStep` facade in the goal context (`GoalContext.addStep`): it
computes `maxOrder` (`-1` when the target level is empty or the parent is
missing), builds the new leaf step with `parentId = parentStepId` and
`order = maxOrder + 1`, and calls `stepHelpers.addStep`.  Its local
`findParent` duplicates `findStep`'s algorithm verbatim, so it is embedded
as `findStepList`. -/
def addStepFacade (goal : Goal) (newId title : String) (description : Option String)
    (parentStepId : Option String) (now : Int) : Goal :=
  let maxOrder : Int :=
    match parentStepId with
    | none =>
      match goal.steps.map Step.order with
      | [] => -1
      | o :: os => jsMaxOf o os
    | some pid =>
      match findStepList goal.steps pid with
      | some parent =>
        if parent.children.length > 0 then
          match parent.children.map Step.order with
          | [] => -1
          | o :: os => jsMaxOf o os
        else -1
      | none => -1
  addStep goal (.mk newId title description false parentStepId [] (maxOrder + 1))
    parentStepId now

/-- The `updateStep` facade in the goal context (`GoalContext.updateStep`):
looks the step up, throws (here: `none`) when it is missing, otherwise
rebuilds it as `{...existingStep, title, description}` and calls
`stepHelpers.updateStep`. -/
def updateStepFacade (goal : Goal) (stepId : String) (title : String)
    (description : Option String) (now : Int) : Option Goal :=
  match findStep goal stepId with
  | none => none
  | some (.mk i _ _ c p cs o) =>
    some (updateStep goal (.mk i title description c p cs o) now)


/-! ## Semantic layer: ids, nodes, invariants -/

mutual
/-- All ids in a step's subtree, pre-order. -/
def subtreeIds : Step → List String
  | .mk i _ _ _ _ cs _ => i :: allIdsList cs

/-- All ids in a forest, pre-order. -/
def allIdsList : List Step → List String
  | [] => []
  | s :: rest => subtreeIds s ++ allIdsList rest
end

mutual
/-- All nodes of a step's subtree, pre-order (the step itself first). -/
def subtreeNodes : Step → List Step
  | .mk i t d c p cs o => .mk i t d c p cs o :: nodesList cs

/-- All nodes of a forest, pre-order. -/
def nodesList : List Step → List Step
  | [] => []
  | s :: rest => subtreeNodes s ++ nodesList rest
end

/-- Ids of the strict descendants of a step. -/
def descendantIds (s : Step) : List String := allIdsList s.children

/-- `completed` flag of the step found at `i`, if any. -/
def completedOf (l : List Step) (i : String) : Option Bool :=
  (findStepList l i).map Step.completed

/-- `order` of the step found at `i`, if any. -/
def orderAt (l : List Step) (i : String) : Option Int :=
  (findStepList l i).map Step.order

/-- All fields of a step except its children (used to state frame
conditions: a step may be rebuilt around changed children while its own
fields stay put). -/
def ownFields (s : Step) : String × String × Option String × Bool × Option String × Int :=
  (s.id, s.title, s.description, s.completed, s.parentId, s.order)

/-- `ownFields` of the step found at `i`, if any. -/
def fieldsOf (l : List Step) (i : String) :
    Option (String × String × Option String × Bool × Option String × Int) :=
  (findStepList l i).map ownFields

mutual
/-- Invariant I3 at one node: its `parentId` equals the id of the step that
structurally contains it (`expected`), recursively below. -/
def parentOkStep (expected : Option String) : Step → Bool
  | .mk i _ _ _ p cs _ => p == expected && parentOkList (some i) cs

/-- Invariant I3 for a sibling list contained in `expected`. -/
def parentOkList (expected : Option String) : List Step → Bool
  | [] => true
  | s :: rest => parentOkStep expected s && parentOkList expected rest
end

mutual
/-- Invariant I2 below one node. -/
def denseStep : Step → Bool
  | .mk _ _ _ _ _ cs _ => denseForest cs
termination_by s => (sizeOf s, 0)

/-- Invariant I2 below every element of a list. -/
def denseChildren : List Step → Bool
  | [] => true
  | s :: rest => denseStep s && denseChildren rest
termination_by l => (sizeOf l, 1)

/-- Invariant I2 for a forest: the sibling `order` values at this level are
exactly `0..N-1` (as a multiset), and the same holds in every nested
sibling set. -/
def denseForest (l : List Step) : Bool :=
  (l.map Step.order).isPerm ((List.range l.length).map Int.ofNat) && denseChildren l
termination_by (sizeOf l, 2)
end

/-- The data of a step's subtree that `DuplicateSubtree` is claimed to
mirror: titles, descriptions, completion flags and the child structure. -/
inductive Shape where
  | mk (title : String) (description : Option String) (completed : Bool)
       (children : List Shape)

mutual
/-- Forget ids, parent links and orders. -/
def projShape : Step → Shape
  | .mk _ t d c _ cs _ => .mk t d c (projShapeList cs)

def projShapeList : List Step → List Shape
  | [] => []
  | s :: rest => projShape s :: projShapeList rest
end

mutual
/-- Append `" (Copy)"` to every title of a shape. -/
def addCopyAll : Shape → Shape
  | .mk t d c cs => .mk (t ++ " (Copy)") d c (addCopyAllList cs)

def addCopyAllList : List Shape → List Shape
  | [] => []
  | s :: rest => addCopyAll s :: addCopyAllList rest
end

/-! ## Demo data for witnesses and counterexamples -/

/-- A leaf step `b`, child of `a`. -/
def stepB : Step := .mk "b" "B" none false (some "a") [] 0

/-- A root step `a` with one child `b`. -/
def stepA : Step := .mk "a" "A" none false none [stepB] 0

/-- A goal with the two-step tree `a → b`. -/
def demoGoal : Goal :=
  { id := "g", title := "G", description := none, createdAt := 0, updatedAt := 0,
    steps := [stepA], order := 0 }

/-- Three goals for the reorder witness. -/
def goalsDemo : List Goal :=
  [ { id := "x", title := "X", description := none, createdAt := 0, updatedAt := 0,
      steps := [], order := 0 },
    { id := "y", title := "Y", description := none, createdAt := 0, updatedAt := 0,
      steps := [], order := 1 },
    { id := "z", title := "Z", description := none, createdAt := 0, updatedAt := 0,
      steps := [], order := 2 } ]

/-- Two root steps for the density counterexample. -/
def stepP : Step := .mk "p" "P" none false none [] 0

/-- Second root step for the density counterexample. -/
def stepQ : Step := .mk "q" "Q" none false none [] 1

/-- A goal with two dense root steps `p`, `q`. -/
def moveDemo : Goal :=
  { id := "m", title := "M", description := none, createdAt := 0, updatedAt := 0,
    steps := [stepP, stepQ], order := 0 }

/-- The sibling list a step with the given `parentId` belongs to: the root
list, or the children of the node found at that id. -/
def siblingsOf (goal : Goal) (pidOpt : Option String) : List Step :=
  match pidOpt with
  | none => goal.steps
  | some pid =>
    match findStep goal pid with
    | some P => P.children
    | none => []

/-- A two-valued id supply for concrete duplicate examples. -/
def ids0 : Nat → String := fun n => if n = 0 then "c0" else "c1"


@[simp] theorem Step.id_mk : (Step.mk i t d c p cs o).id = i := rfl
@[simp] theorem Step.title_mk : (Step.mk i t d c p cs o).title = t := rfl
@[simp] theorem Step.description_mk : (Step.mk i t d c p cs o).description = d := rfl
@[simp] theorem Step.completed_mk : (Step.mk i t d c p cs o).completed = c := rfl
@[simp] theorem Step.parentId_mk : (Step.mk i t d c p cs o).parentId = p := rfl
@[simp] theorem Step.children_mk : (Step.mk i t d c p cs o).children = cs := rfl
@[simp] theorem Step.order_mk : (Step.mk i t d c p cs o).order = o := rfl
@[simp] theorem Step.withChildren_mk :
    (Step.mk i t d c p cs o).withChildren cs' = .mk i t d c p cs' o := rfl
@[simp] theorem Step.withOrder_mk :
    (Step.mk i t d c p cs o).withOrder o' = .mk i t d c p cs o' := rfl
@[simp] theorem Step.withParentId_mk :
    (Step.mk i t d c p cs o).withParentId p' = .mk i t d c p' cs o := rfl

/-- Structural induction over forests of steps, giving hypotheses for both
the children of the head and the tail.  (The nested `List Step` inside
`Step` hides this recursor from the default `induction` tactic.) -/
theorem forestRec {motive : List Step → Prop}
    (nil : motive [])
    (cons : ∀ i t d c p cs o rest, motive cs → motive rest →
      motive (Step.mk i t d c p cs o :: rest)) :
    ∀ l, motive l := by
  have key : ∀ n (l : List Step), sizeOf l ≤ n → motive l := by
    intro n
    induction n with
    | zero =>
      intro l hl
      cases l with
      | nil => exact nil
      | cons s rest =>
        exfalso
        rw [List.cons.sizeOf_spec] at hl
        omega
    | succ n ih =>
      intro l hl
      cases l with
      | nil => exact nil
      | cons s rest =>
        cases s with
        | mk i t d c p cs o =>
          rw [List.cons.sizeOf_spec, Step.mk.sizeOf_spec] at hl
          apply cons
          · exact ih cs (by omega)
          · exact ih rest (by omega)
  exact fun l => key (sizeOf l) l le_rfl

/-! ## Basic lemmas: ids and search -/

@[simp] theorem subtreeIds_mk :
    subtreeIds (Step.mk i t d c p cs o) = i :: allIdsList cs := by
  simp [subtreeIds]

@[simp] theorem allIdsList_nil : allIdsList [] = [] := by
  simp [allIdsList]

@[simp] theorem allIdsList_cons :
    allIdsList (Step.mk i t d c p cs o :: rest) =
      i :: (allIdsList cs ++ allIdsList rest) := by
  simp [allIdsList]

theorem findStepList_eq_none_iff (l : List Step) (sid : String) :
    findStepList l sid = none ↔ sid ∉ allIdsList l := by
  induction l, sid using findStepList.induct with
  | case1 sid => simp [findStepList]
  | case2 i t d c p cs o rest sid heq =>
    have hi : i = sid := by simpa using heq
    subst hi
    simp [findStepList]
  | case3 i t d c p cs o rest sid hne f hf ihc =>
    have hmem : sid ∈ allIdsList cs := by
      by_contra hm
      rw [ihc.mpr hm] at hf
      cases hf
    simp [findStepList, hne, hf, hmem]
  | case4 i t d c p cs o rest sid hne hnone ihc ihr =>
    have h1 : sid ∉ allIdsList cs := ihc.mp hnone
    have h2 : ¬ sid = i := fun h => hne (by simp [h])
    simp [findStepList, hne, hnone, ihr, h1, h2]

theorem findStepList_id_of_eq_some {l : List Step} {sid : String} {X : Step}
    (h : findStepList l sid = some X) : X.id = sid := by
  induction l, sid using findStepList.induct with
  | case1 sid => simp [findStepList] at h
  | case2 i t d c p cs o rest sid heq =>
    have hi : i = sid := by simpa using heq
    subst hi
    simp [findStepList] at h
    subst h
    simp
  | case3 i t d c p cs o rest sid hne f hf ihc =>
    simp [findStepList, hne, hf] at h
    subst h
    exact ihc hf
  | case4 i t d c p cs o rest sid hne hnone ihc ihr =>
    simp [findStepList, hne, hnone] at h
    exact ihr h

theorem mem_allIds_of_find {l : List Step} {sid : String} {X : Step}
    (h : findStepList l sid = some X) : sid ∈ allIdsList l := by
  by_contra hm
  rw [(findStepList_eq_none_iff l sid).mpr hm] at h
  cases h

theorem subtreeIds_subset_of_find {l : List Step} {sid : String} {X : Step}
    (h : findStepList l sid = some X) : ∀ j ∈ subtreeIds X, j ∈ allIdsList l := by
  induction l, sid using findStepList.induct with
  | case1 sid => simp [findStepList] at h
  | case2 i t d c p cs o rest sid heq =>
    have hi : i = sid := by simpa using heq
    subst hi
    simp [findStepList] at h
    subst h
    intro j hj
    simp at hj
    simp [hj]
    tauto
  | case3 i t d c p cs o rest sid hne f hf ihc =>
    simp [findStepList, hne, hf] at h
    subst h
    intro j hj
    have := ihc hf j hj
    simp [this]
  | case4 i t d c p cs o rest sid hne hnone ihc ihr =>
    simp [findStepList, hne, hnone] at h
    intro j hj
    have := ihr h j hj
    simp [this]

@[simp] theorem nodesList_nil : nodesList [] = [] := by simp [nodesList]

@[simp] theorem nodesList_cons :
    nodesList (Step.mk i t d c p cs o :: rest) =
      Step.mk i t d c p cs o :: (nodesList cs ++ nodesList rest) := by
  simp [nodesList, subtreeNodes]

@[simp] theorem subtreeNodes_mk :
    subtreeNodes (Step.mk i t d c p cs o) = Step.mk i t d c p cs o :: nodesList cs := by
  simp [subtreeNodes]

theorem nodesList_map_id : ∀ l : List Step, (nodesList l).map Step.id = allIdsList l := by
  apply forestRec
  · simp
  · intro i t d c p cs o rest ihc ihr
    simp [ihc, ihr]

theorem mem_nodesList_of_mem : ∀ l : List Step, ∀ s ∈ l, s ∈ nodesList l := by
  apply forestRec
  · simp
  · intro i t d c p cs o rest _ ihr s hs
    rcases List.mem_cons.mp hs with hs | hs
    · simp [hs]
    · simp [ihr s hs]

theorem mem_nodes_trans :
    ∀ l : List Step, ∀ X ∈ nodesList l, ∀ Y ∈ subtreeNodes X, Y ∈ nodesList l := by
  apply forestRec
  · simp
  · intro i t d c p cs o rest ihc ihr X hX Y hY
    simp at hX
    rcases hX with hX | hX | hX
    · subst hX
      simp at hY
      rcases hY with hY | hY
      · simp [hY]
      · simp [hY]
    · simp [ihc X hX Y hY]
    · simp [ihr X hX Y hY]

theorem mem_nodes_of_find {l : List Step} {sid : String} {X : Step}
    (h : findStepList l sid = some X) : X ∈ nodesList l := by
  induction l, sid using findStepList.induct with
  | case1 sid => simp [findStepList] at h
  | case2 i t d c p cs o rest sid heq =>
    have hi : i = sid := by simpa using heq
    subst hi
    simp [findStepList] at h
    simp [← h]
  | case3 i t d c p cs o rest sid hne f hf ihc =>
    simp [findStepList, hne, hf] at h
    subst h
    simp [ihc hf]
  | case4 i t d c p cs o rest sid hne hnone ihc ihr =>
    simp [findStepList, hne, hnone] at h
    simp [ihr h]

theorem children_mem_nodes_of_find {l : List Step} {sid : String} {X : Step}
    (h : findStepList l sid = some X) : ∀ c ∈ X.children, c ∈ nodesList l := by
  intro c hc
  apply mem_nodes_trans l X (mem_nodes_of_find h)
  cases X with
  | mk i t d cc p cs o =>
    simp at hc
    simp [mem_nodesList_of_mem cs c hc]

/-- In a forest with globally unique ids, searching for a node's own id
finds exactly that node. -/
theorem find_of_mem_nodes :
    ∀ l : List Step, (allIdsList l).Nodup → ∀ X ∈ nodesList l, findStepList l X.id = some X := by
  apply forestRec
  · simp
  · intro i t d c p cs o rest ihc ihr hnd X hX
    have hnd' := hnd
    simp [List.nodup_cons, List.nodup_append] at hnd'
    obtain ⟨⟨hic, hir⟩, hcs, hrest, hdisj⟩ := hnd'
    simp at hX
    rcases hX with hX | hX | hX
    · subst hX
      simp [findStepList]
    · -- X is inside the head's children
      have hXid : X.id ∈ allIdsList cs := by
        rw [← nodesList_map_id]
        exact List.mem_map_of_mem Step.id hX
      have hne : ¬ i == X.id := by
        simp
        intro hcontra
        exact hic (hcontra ▸ hXid)
      simp [findStepList, hne, ihc hcs X hX]
    · -- X is in the tail
      have hXid : X.id ∈ allIdsList rest := by
        rw [← nodesList_map_id]
        exact List.mem_map_of_mem Step.id hX
      have hne : ¬ i == X.id := by
        simp
        intro hcontra
        exact hir (hcontra ▸ hXid)
      have hnotcs : X.id ∉ allIdsList cs := fun hmem => hdisj hmem hXid
      have hnonecs : findStepList cs X.id = none :=
        (findStepList_eq_none_iff cs X.id).mpr hnotcs
      simp [findStepList, hne, hnonecs, ihr hrest X hX]

theorem mem_allIds_of_mem_self {l : List Step} {s : Step} (h : s ∈ l) :
    s.id ∈ allIdsList l := by
  rw [← nodesList_map_id]
  exact List.mem_map_of_mem Step.id (mem_nodesList_of_mem l s h)

/-! ## No-op lemmas: each recursive transformer is the identity when the
target id does not occur in the forest -/

theorem addStepRecursive_of_not_mem (pid : String) (st : Step) :
    ∀ l : List Step, pid ∉ allIdsList l → addStepRecursive pid st l = l := by
  apply forestRec
  · intro _; simp [addStepRecursive]
  · intro i t d c p cs o rest ihc ihr hmem
    simp at hmem
    obtain ⟨hi, hcs, hrest⟩ := hmem
    have hne : ¬ i == pid := by simp; exact fun h => hi h.symm
    simp [addStepRecursive, hne, ihc hcs, ihr hrest]

theorem updateStepRecursive_of_not_mem (u : Step) :
    ∀ l : List Step, u.id ∉ allIdsList l → updateStepRecursive u l = l := by
  apply forestRec
  · intro _; simp [updateStepRecursive]
  · intro i t d c p cs o rest ihc ihr hmem
    simp at hmem
    obtain ⟨hi, hcs, hrest⟩ := hmem
    have hne : ¬ i == u.id := by simp; exact fun h => hi h.symm
    simp [updateStepRecursive, hne, ihc hcs, ihr hrest]

theorem deleteStepRecursive_of_not_mem (sid : String) :
    ∀ l : List Step, sid ∉ allIdsList l → deleteStepRecursive sid l = l := by
  apply forestRec
  · intro _; simp [deleteStepRecursive]
  · intro i t d c p cs o rest ihc ihr hmem
    simp at hmem
    obtain ⟨hi, hcs, hrest⟩ := hmem
    have hne : ¬ i == sid := by simp; exact fun h => hi h.symm
    simp [deleteStepRecursive, hne, ihc hcs, ihr hrest]

theorem toggleCompletionRecursive_of_not_mem (sid : String) :
    ∀ l : List Step, sid ∉ allIdsList l → toggleCompletionRecursive sid l = l := by
  apply forestRec
  · intro _; simp [toggleCompletionRecursive]
  · intro i t d c p cs o rest ihc ihr hmem
    simp at hmem
    obtain ⟨hi, hcs, hrest⟩ := hmem
    have hne : ¬ i == sid := by simp; exact fun h => hi h.symm
    simp [toggleCompletionRecursive, hne, ihc hcs, ihr hrest]

theorem reorderWithParent_of_not_mem (sid : String) (n : Nat) (pid : String) :
    ∀ l : List Step, sid ∉ allIdsList l → reorderWithParent sid n pid l = l := by
  apply forestRec
  · intro _; simp [reorderWithParent]
  · intro i t d c p cs o rest ihc ihr hmem
    simp at hmem
    obtain ⟨_, hcs, hrest⟩ := hmem
    by_cases hip : i == pid
    · have hidx : cs.findIdx? (fun s => s.id == sid) = none := by
        rw [List.findIdx?_eq_none_iff]
        intro s hs
        simp
        intro hcontra
        exact hcs (hcontra ▸ mem_allIds_of_mem_self hs)
      simp [reorderWithParent, hip, hidx, ihr hrest]
    · simp [reorderWithParent, hip, ihc hcs, ihr hrest]

theorem reorderRootLevel_of_not_mem (sid : String) (n : Nat) {l : List Step}
    (h : sid ∉ allIdsList l) : reorderRootLevel sid n l = l := by
  have hidx : l.findIdx? (fun s => s.id == sid) = none := by
    rw [List.findIdx?_eq_none_iff]
    intro s hs
    simp
    intro hcontra
    exact h (hcontra ▸ mem_allIds_of_mem_self hs)
  simp [reorderRootLevel, hidx]

theorem addStepToNewParent_of_not_mem (goal : Goal) (pid : String) (mv : Step) :
    ∀ l : List Step, pid ∉ allIdsList l → addStepToNewParent goal pid mv l = l := by
  apply forestRec
  · intro _; simp [addStepToNewParent]
  · intro i t d c p cs o rest ihc ihr hmem
    simp at hmem
    obtain ⟨hi, hcs, hrest⟩ := hmem
    have hne : ¬ i == pid := by simp; exact fun h => hi h.symm
    simp [addStepToNewParent, hne, ihc hcs, ihr hrest]


/-! ## C3: mutations on a missing step id -/

/-- C3, counterexample: `deleteStep` on a missing step id does NOT return a
value deep-equal to the input goal — it bumps `updatedAt` to the current
time (here 1, while the input's `updatedAt` is 0), so the claim that every
mutation on a missing id returns the input unchanged "including its
updatedAt field" is false. -/
theorem claim3_counterexample : deleteStep demoGoal "zz" 1 ≠ demoGoal := by
  intro h
  have hupd := congrArg Goal.updatedAt h
  simp [deleteStep, demoGoal] at hupd

/-- C3 (amended): a mutation targeting a step id that does not occur in the
goal's tree leaves the step forest (and every other field except
`updatedAt`) unchanged.  `duplicateStep` and `moveStepToParent` return the
input goal itself; `addStep` (with a missing parent id), `updateStep`,
`deleteStep`, `toggleStepCompletion` and `reorderStep` return the input
goal with only `updatedAt` set to the current time. -/
theorem claim3_missing_id_is_noop (goal : Goal) (sid : String) (now : Int)
    (h : sid ∉ allIdsList goal.steps) :
    (∀ ids : Nat → String, duplicateStep goal sid ids now = goal) ∧
    (∀ newParentId : Option String, moveStepToParent goal sid newParentId now = goal) ∧
    (∀ st : Step, addStep goal st (some sid) now = { goal with updatedAt := now }) ∧
    (∀ u : Step, u.id = sid → updateStep goal u now = { goal with updatedAt := now }) ∧
    deleteStep goal sid now = { goal with updatedAt := now } ∧
    toggleStepCompletion goal sid now = { goal with updatedAt := now } ∧
    (∀ (n : Nat) (pidOpt : Option String),
      reorderStep goal sid n pidOpt now = { goal with updatedAt := now }) := by
  have hfind : findStepList goal.steps sid = none :=
    (findStepList_eq_none_iff goal.steps sid).mpr h
  refine ⟨?_, ?_, ?_, ?_, ?_, ?_, ?_⟩
  · intro ids
    simp [duplicateStep, findStep, hfind]
  · intro newParentId
    simp [moveStepToParent, findStep, hfind]
  · intro st
    simp [addStep, addStepRecursive_of_not_mem sid st goal.steps h]
  · intro u hu
    have : u.id ∉ allIdsList goal.steps := by rw [hu]; exact h
    simp [updateStep, updateStepRecursive_of_not_mem u goal.steps this]
  · simp [deleteStep, deleteStepRecursive_of_not_mem sid goal.steps h]
  · simp [toggleStepCompletion, toggleCompletionRecursive_of_not_mem sid goal.steps h]
  · intro n pidOpt
    cases pidOpt with
    | none => simp [reorderStep, reorderRootLevel_of_not_mem sid n h]
    | some pid => simp [reorderStep, reorderWithParent_of_not_mem sid n pid goal.steps h]

/-- C3 witness: the amended no-op behaviour at the concrete goal `a → b`
and the missing id `"zz"`. -/
theorem claim3_witness :
    deleteStep demoGoal "zz" 5 = { demoGoal with updatedAt := 5 } ∧
    duplicateStep demoGoal "zz" (fun n => toString n) 5 = demoGoal := by
  have h : "zz" ∉ allIdsList demoGoal.steps := by
    simp [demoGoal, stepA, stepB]
  have main := claim3_missing_id_is_noop demoGoal "zz" 5 h
  exact ⟨main.2.2.2.2.1, main.1 (fun n => toString n)⟩

/-- Decomposition of id-uniqueness at a cons cell of a forest. -/
theorem nodup_forest_cons
    (hnd : (allIdsList (Step.mk i t d c p cs o :: rest)).Nodup) :
    i ∉ allIdsList cs ∧ i ∉ allIdsList rest ∧
    (allIdsList cs).Nodup ∧ (allIdsList rest).Nodup ∧
    ∀ j ∈ allIdsList cs, j ∉ allIdsList rest := by
  simp [List.nodup_cons, List.nodup_append] at hnd
  obtain ⟨⟨h1, h2⟩, h3, h4, h5⟩ := hnd
  exact ⟨h1, h2, h3, h4, h5⟩

/-! ## C7: delete removes exactly the target subtree and keeps orders -/

theorem deleteRec_mem_iff (sid : String) :
    ∀ l : List Step, (allIdsList l).Nodup → ∀ X, findStepList l sid = some X →
      ∀ j, j ∈ allIdsList (deleteStepRecursive sid l) ↔
        (j ∈ allIdsList l ∧ j ∉ subtreeIds X) := by
  apply forestRec
  · intro _ X hX
    simp [findStepList] at hX
  · intro i t d c p cs o rest ihc ihr hnd X hX j
    obtain ⟨hic, hir, hndc, hndr, hdisj⟩ := nodup_forest_cons hnd
    by_cases hi : i == sid
    · -- the head is the deleted step
      have hieq : i = sid := by simpa using hi
      rw [findStepList] at hX
      rw [if_pos hi] at hX
      have hXv : X = Step.mk i t d c p cs o := by
        cases hX; rfl
      subst hXv
      have hsidr : sid ∉ allIdsList rest := hieq ▸ hir
      have hrid : deleteStepRecursive sid rest = rest :=
        deleteStepRecursive_of_not_mem sid rest hsidr
      simp only [deleteStepRecursive, if_pos hi, hrid, subtreeIds_mk, allIdsList_cons]
      constructor
      · intro hj
        refine ⟨by simp [hj], ?_⟩
        simp
        constructor
        · intro hji; exact hir (hji ▸ hj)
        · intro hjc; exact hdisj j hjc hj
      · intro ⟨hj1, hj2⟩
        simp at hj1 hj2
        rcases hj1 with hj1 | hj1 | hj1
        · exact absurd hj1 hj2.1
        · exact absurd hj1 hj2.2
        · exact hj1
    · rw [findStepList] at hX
      rw [if_neg hi] at hX
      cases hcs : findStepList cs sid with
      | some Y =>
        rw [hcs] at hX
        have hXY : X = Y := by cases hX; rfl
        subst hXY
        have hsidc : sid ∈ allIdsList cs := mem_allIds_of_find hcs
        have hsidr : sid ∉ allIdsList rest := hdisj sid hsidc
        have hrid : deleteStepRecursive sid rest = rest :=
          deleteStepRecursive_of_not_mem sid rest hsidr
        have hsub : ∀ k ∈ subtreeIds X, k ∈ allIdsList cs := subtreeIds_subset_of_find hcs
        simp only [deleteStepRecursive, if_neg hi, hrid, allIdsList_cons]
        have ihcs := ihc hndc X hcs
        simp only [List.mem_cons, List.mem_append, ihcs]
        constructor
        · rintro (hj | ⟨hj1, hj2⟩ | hj)
          · subst hj
            exact ⟨Or.inl rfl, fun hk => hic (hsub j hk)⟩
          · exact ⟨Or.inr (Or.inl hj1), hj2⟩
          · exact ⟨Or.inr (Or.inr hj), fun hk => hdisj j (hsub j hk) hj⟩
        · rintro ⟨hj | hj | hj, hj2⟩
          · exact Or.inl hj
          · exact Or.inr (Or.inl ⟨hj, hj2⟩)
          · exact Or.inr (Or.inr hj)
      | none =>
        rw [hcs] at hX
        have hsidc : sid ∉ allIdsList cs := (findStepList_eq_none_iff cs sid).mp hcs
        have hcid : deleteStepRecursive sid cs = cs :=
          deleteStepRecursive_of_not_mem sid cs hsidc
        have hsub : ∀ k ∈ subtreeIds X, k ∈ allIdsList rest := subtreeIds_subset_of_find hX
        simp only [deleteStepRecursive, if_neg hi, hcid, allIdsList_cons]
        have ihrest := ihr hndr X hX
        simp only [List.mem_cons, List.mem_append, ihrest]
        constructor
        · rintro (hj | hj | ⟨hj1, hj2⟩)
          · subst hj
            exact ⟨Or.inl rfl, fun hk => hir (hsub j hk)⟩
          · exact ⟨Or.inr (Or.inl hj), fun hk => hdisj j hj (hsub j hk)⟩
          · exact ⟨Or.inr (Or.inr hj1), hj2⟩
        · rintro ⟨hj | hj | hj, hj2⟩
          · exact Or.inl hj
          · exact Or.inr (Or.inl hj)
          · exact Or.inr (Or.inr ⟨hj, hj2⟩)

theorem deleteRec_orderAt (sid : String) :
    ∀ l : List Step, (allIdsList l).Nodup → ∀ X, findStepList l sid = some X →
      ∀ j, j ∉ subtreeIds X →
        orderAt (deleteStepRecursive sid l) j = orderAt l j := by
  apply forestRec
  · intro _ X hX
    simp [findStepList] at hX
  · intro i t d c p cs o rest ihc ihr hnd X hX j hj
    obtain ⟨hic, hir, hndc, hndr, hdisj⟩ := nodup_forest_cons hnd
    by_cases hi : i == sid
    · have hieq : i = sid := by simpa using hi
      rw [findStepList, if_pos hi] at hX
      have hXv : X = Step.mk i t d c p cs o := by cases hX; rfl
      subst hXv
      simp at hj
      obtain ⟨hji, hjc⟩ := hj
      have hsidr : sid ∉ allIdsList rest := hieq ▸ hir
      have hrid : deleteStepRecursive sid rest = rest :=
        deleteStepRecursive_of_not_mem sid rest hsidr
      have hcj : findStepList cs j = none := (findStepList_eq_none_iff cs j).mpr hjc
      have hij : ¬ i == j := by simp; exact fun h => hji h.symm
      simp only [deleteStepRecursive, if_pos hi, hrid, orderAt, findStepList, if_neg hij, hcj]
    · rw [findStepList, if_neg hi] at hX
      cases hcs : findStepList cs sid with
      | some Y =>
        rw [hcs] at hX
        have hXY : X = Y := by cases hX; rfl
        subst hXY
        have hsidc : sid ∈ allIdsList cs := mem_allIds_of_find hcs
        have hsidr : sid ∉ allIdsList rest := hdisj sid hsidc
        have hrid : deleteStepRecursive sid rest = rest :=
          deleteStepRecursive_of_not_mem sid rest hsidr
        by_cases hij : i == j
        · simp only [deleteStepRecursive, if_neg hi, hrid, orderAt, findStepList, if_pos hij]
          simp
        · cases hcj : findStepList cs j with
          | none =>
            have hjc : j ∉ allIdsList cs := (findStepList_eq_none_iff cs j).mp hcj
            have hjdc : j ∉ allIdsList (deleteStepRecursive sid cs) := by
              rw [deleteRec_mem_iff sid cs hndc X hcs j]
              tauto
            have hdcj : findStepList (deleteStepRecursive sid cs) j = none :=
              (findStepList_eq_none_iff _ j).mpr hjdc
            simp only [deleteStepRecursive, if_neg hi, hrid, orderAt, findStepList,
              if_neg hij, hcj, hdcj]
          | some y =>
            have hjc : j ∈ allIdsList cs := mem_allIds_of_find hcj
            have hjdc : j ∈ allIdsList (deleteStepRecursive sid cs) := by
              rw [deleteRec_mem_iff sid cs hndc X hcs j]
              exact ⟨hjc, hj⟩
            have hord := ihc hndc X hcs j hj
            cases hdcj : findStepList (deleteStepRecursive sid cs) j with
            | none =>
              exact absurd hjdc ((findStepList_eq_none_iff _ j).mp hdcj)
            | some z =>
              simp only [orderAt, hdcj, hcj, Option.map_some] at hord
              simp only [deleteStepRecursive, if_neg hi, hrid, orderAt, findStepList,
                if_neg hij, hcj, hdcj, Option.map_some, hord]
      | none =>
        rw [hcs] at hX
        have hsidc : sid ∉ allIdsList cs := (findStepList_eq_none_iff cs sid).mp hcs
        have hcid : deleteStepRecursive sid cs = cs :=
          deleteStepRecursive_of_not_mem sid cs hsidc
        by_cases hij : i == j
        · have hije : i = j := by simpa using hij
          subst hije
          simp only [deleteStepRecursive, if_neg hi, orderAt, findStepList]
          simp
        · cases hcj : findStepList cs j with
          | some y =>
            simp only [deleteStepRecursive, if_neg hi, hcid, orderAt, findStepList,
              if_neg hij, hcj, Option.map_some]
          | none =>
            have hord := ihr hndr X hX j hj
            simp only [deleteStepRecursive, if_neg hi, hcid, orderAt, findStepList,
              if_neg hij, hcj]
            simpa [orderAt] using hord

/-- C7: `deleteStep` on a step `X` found in the goal removes `X`'s whole
subtree (none of its ids remains reachable), keeps every other step (an id
outside the deleted subtree is present afterwards iff it was present
before), and does not renumber: every surviving step keeps its `order`
value. -/
theorem claim7_delete_removes_subtree (goal : Goal) (sid : String) (now : Int) (X : Step)
    (hnd : (allIdsList goal.steps).Nodup) (hfind : findStep goal sid = some X) :
    (∀ j ∈ subtreeIds X, j ∉ allIdsList (deleteStep goal sid now).steps) ∧
    (∀ j, j ∉ subtreeIds X →
      (j ∈ allIdsList (deleteStep goal sid now).steps ↔ j ∈ allIdsList goal.steps)) ∧
    (∀ j, j ∉ subtreeIds X →
      orderAt (deleteStep goal sid now).steps j = orderAt goal.steps j) := by
  have hmem := deleteRec_mem_iff sid goal.steps hnd X hfind
  have hord := deleteRec_orderAt sid goal.steps hnd X hfind
  refine ⟨?_, ?_, ?_⟩
  · intro j hj
    simp only [deleteStep, hmem j]
    tauto
  · intro j hj
    simp only [deleteStep, hmem j]
    tauto
  · intro j hj
    simp only [deleteStep]
    exact hord j hj

/-- C7 witness: deleting `b` from the goal `a → b` leaves `b` unreachable
and keeps `a`'s order. -/
theorem claim7_witness :
    "b" ∉ allIdsList (deleteStep demoGoal "b" 2).steps ∧
    orderAt (deleteStep demoGoal "b" 2).steps "a" = orderAt demoGoal.steps "a" := by
  have hnd : (allIdsList demoGoal.steps).Nodup := by
    have h : allIdsList demoGoal.steps = ["a", "b"] := by simp [demoGoal, stepA, stepB]
    rw [h]
    decide
  have hfind : findStep demoGoal "b" = some stepB := by
    simp [findStep, demoGoal, findStepList, stepA, stepB]
  have main := claim7_delete_removes_subtree demoGoal "b" 2 stepB hnd hfind
  refine ⟨main.1 "b" (by simp [stepB]), main.2.2 "a" (by simp [stepB])⟩

/-! ## C6: cascade completion -/

theorem toggleForce_allIds (b : Bool) :
    ∀ l : List Step, allIdsList (toggleForce b l) = allIdsList l := by
  apply forestRec
  · simp [toggleForce]
  · intro i t d c p cs o rest ihc ihr
    simp [toggleForce, ihc, ihr]

theorem completedOf_toggleForce (b : Bool) (j : String) :
    ∀ l : List Step,
      completedOf (toggleForce b l) j = if j ∈ allIdsList l then some b else none := by
  apply forestRec
  · simp [toggleForce, completedOf, findStepList]
  · intro i t d c p cs o rest ihc ihr
    by_cases hij : i == j
    · have hije : i = j := by simpa using hij
      subst hije
      simp [toggleForce, completedOf, findStepList]
    · have hije : ¬ i = j := by simpa using hij
      by_cases hjc : j ∈ allIdsList cs
      · have : completedOf (toggleForce b cs) j = some b := by rw [ihc, if_pos hjc]
        obtain ⟨y, hy, hyb⟩ : ∃ y, findStepList (toggleForce b cs) j = some y ∧
            y.completed = b := by
          cases hfy : findStepList (toggleForce b cs) j with
          | none => rw [completedOf, hfy] at this; cases this
          | some y =>
            rw [completedOf, hfy] at this
            exact ⟨y, rfl, by simpa using this⟩
        simp [toggleForce, completedOf, findStepList, hij, hy, hyb, hjc]
      · have : completedOf (toggleForce b cs) j = none := by rw [ihc, if_neg hjc]
        have hfy : findStepList (toggleForce b cs) j = none := by
          cases hfy : findStepList (toggleForce b cs) j with
          | none => rfl
          | some y => rw [completedOf, hfy] at this; cases this
        simp only [toggleForce, completedOf, findStepList, if_neg hij, hfy]
        rw [completedOf] at ihr
        have hjie : ¬ j = i := fun h => hije h.symm
        simp [ihr, hjie, hjc]

theorem toggleRec_allIds (sid : String) :
    ∀ l : List Step, allIdsList (toggleCompletionRecursive sid l) = allIdsList l := by
  apply forestRec
  · simp [toggleCompletionRecursive]
  · intro i t d c p cs o rest ihc ihr
    by_cases hi : i == sid
    · simp [toggleCompletionRecursive, hi, toggleForce_allIds, ihr]
    · by_cases hl : cs.length > 0
      · simp [toggleCompletionRecursive, hi, hl, ihc, ihr]
      · simp [toggleCompletionRecursive, hi, hl, ihr]

theorem toggleRec_completedOf (sid : String) :
    ∀ l : List Step, (allIdsList l).Nodup → ∀ X, findStepList l sid = some X →
      ∀ j, completedOf (toggleCompletionRecursive sid l) j =
        if j ∈ subtreeIds X then some (!X.completed) else completedOf l j := by
  apply forestRec
  · intro _ X hX
    simp [findStepList] at hX
  · intro i t d c p cs o rest ihc ihr hnd X hX j
    obtain ⟨hic, hir, hndc, hndr, hdisj⟩ := nodup_forest_cons hnd
    by_cases hi : i == sid
    · -- the head is the toggled step
      have hieq : i = sid := by simpa using hi
      rw [findStepList, if_pos hi] at hX
      have hXv : X = Step.mk i t d c p cs o := by cases hX; rfl
      subst hXv
      have hsidr : sid ∉ allIdsList rest := hieq ▸ hir
      have hrid : toggleCompletionRecursive sid rest = rest :=
        toggleCompletionRecursive_of_not_mem sid rest hsidr
      by_cases hij : i == j
      · have hije : i = j := by simpa using hij
        subst hije
        simp [toggleCompletionRecursive, hi, hrid, completedOf, findStepList]
      · have hije : ¬ i = j := by simpa using hij
        have hjie : ¬ j = i := fun h => hije h.symm
        by_cases hjc : j ∈ allIdsList cs
        · have hforce : completedOf (toggleForce (!c) cs) j = some (!c) := by
            rw [completedOf_toggleForce, if_pos hjc]
          obtain ⟨y, hy, hyb⟩ : ∃ y, findStepList (toggleForce (!c) cs) j = some y ∧
              y.completed = (!c) := by
            cases hfy : findStepList (toggleForce (!c) cs) j with
            | none => rw [completedOf, hfy] at hforce; cases hforce
            | some y =>
              rw [completedOf, hfy] at hforce
              exact ⟨y, rfl, by simpa using hforce⟩
          simp [toggleCompletionRecursive, hi, hrid, completedOf, findStepList, hij, hy, hyb,
            hjc]
        · have hforce : completedOf (toggleForce (!c) cs) j = none := by
            rw [completedOf_toggleForce, if_neg hjc]
          have hfy : findStepList (toggleForce (!c) cs) j = none := by
            cases hfy : findStepList (toggleForce (!c) cs) j with
            | none => rfl
            | some y => rw [completedOf, hfy] at hforce; cases hforce
          have hcj : findStepList cs j = none := (findStepList_eq_none_iff cs j).mpr hjc
          simp [toggleCompletionRecursive, hi, hrid, completedOf, findStepList, hij, hfy,
            hjc, hjie, hcj]
    · have hine : ¬ i = sid := by simpa using hi
      rw [findStepList, if_neg hi] at hX
      cases hcs : findStepList cs sid with
      | some Y =>
        rw [hcs] at hX
        have hXY : X = Y := by cases hX; rfl
        subst hXY
        have hsidc : sid ∈ allIdsList cs := mem_allIds_of_find hcs
        have hsidr : sid ∉ allIdsList rest := hdisj sid hsidc
        have hrid : toggleCompletionRecursive sid rest = rest :=
          toggleCompletionRecursive_of_not_mem sid rest hsidr
        have hlen : cs.length > 0 := by
          cases cs with
          | nil => simp at hsidc
          | cons a as => simp
        have hsub : ∀ k ∈ subtreeIds X, k ∈ allIdsList cs := subtreeIds_subset_of_find hcs
        by_cases hij : i == j
        · have hije : i = j := by simpa using hij
          subst hije
          have hnotsub : i ∉ subtreeIds X := fun h => hic (hsub i h)
          simp [toggleCompletionRecursive, hi, hlen, hrid, completedOf, findStepList,
            hnotsub]
        · have hije : ¬ i = j := by simpa using hij
          have ihcs := ihc hndc X hcs j
          by_cases hjX : j ∈ subtreeIds X
          · rw [if_pos hjX] at ihcs
            obtain ⟨y, hy, hyb⟩ : ∃ y, findStepList (toggleCompletionRecursive sid cs) j = some y ∧
                y.completed = (!X.completed) := by
              cases hfy : findStepList (toggleCompletionRecursive sid cs) j with
              | none => rw [completedOf, hfy] at ihcs; cases ihcs
              | some y =>
                rw [completedOf, hfy] at ihcs
                exact ⟨y, rfl, by simpa using ihcs⟩
            simp [toggleCompletionRecursive, hi, hlen, hrid, completedOf, findStepList, hij,
              hy, hyb, hjX]
          · rw [if_neg hjX] at ihcs
            cases hfc : findStepList cs j with
            | some y =>
              obtain ⟨z, hz, hzy⟩ : ∃ z, findStepList (toggleCompletionRecursive sid cs) j = some z ∧
                  z.completed = y.completed := by
                cases hfz : findStepList (toggleCompletionRecursive sid cs) j with
                | none =>
                  have h1 : j ∉ allIdsList (toggleCompletionRecursive sid cs) :=
                    (findStepList_eq_none_iff _ j).mp hfz
                  rw [toggleRec_allIds] at h1
                  exact absurd (mem_allIds_of_find hfc) h1
                | some z =>
                  rw [completedOf, hfz, completedOf, hfc] at ihcs
                  exact ⟨z, rfl, by simpa using ihcs⟩
              simp [toggleCompletionRecursive, hi, hlen, hrid, completedOf, findStepList,
                hij, hz, hzy, hfc, hjX]
            | none =>
              have h1 : j ∉ allIdsList cs := (findStepList_eq_none_iff cs j).mp hfc
              have h2 : j ∉ allIdsList (toggleCompletionRecursive sid cs) := by
                rw [toggleRec_allIds]; exact h1
              have hfz : findStepList (toggleCompletionRecursive sid cs) j = none :=
                (findStepList_eq_none_iff _ j).mpr h2
              simp [toggleCompletionRecursive, hi, hlen, hrid, completedOf, findStepList,
                hij, hfz, hfc, hjX]
      | none =>
        rw [hcs] at hX
        have hsidc : sid ∉ allIdsList cs := (findStepList_eq_none_iff cs sid).mp hcs
        have hcid : toggleCompletionRecursive sid cs = cs :=
          toggleCompletionRecursive_of_not_mem sid cs hsidc
        have hsub : ∀ k ∈ subtreeIds X, k ∈ allIdsList rest := subtreeIds_subset_of_find hX
        have hhead : (if i == sid then Step.mk i t d (!c) p (toggleForce (!c) cs) o
            else if cs.length > 0 then Step.mk i t d c p (toggleCompletionRecursive sid cs) o
            else Step.mk i t d c p cs o) = Step.mk i t d c p cs o := by
          rw [if_neg hi]
          by_cases hl : cs.length > 0
          · rw [if_pos hl, hcid]
          · rw [if_neg hl]
        by_cases hij : i == j
        · have hije : i = j := by simpa using hij
          subst hije
          have hnotsub : i ∉ subtreeIds X := fun h => hir (hsub i h)
          simp only [toggleCompletionRecursive, hhead]
          simp [completedOf, findStepList, hnotsub]
        · have hije : ¬ i = j := by simpa using hij
          cases hfc : findStepList cs j with
          | some y =>
            have hjc : j ∈ allIdsList cs := mem_allIds_of_find hfc
            have hnotsub : j ∉ subtreeIds X := fun h => hdisj j hjc (hsub j h)
            simp only [toggleCompletionRecursive, hhead]
            simp [completedOf, findStepList, hij, hfc, hnotsub]
          | none =>
            have ihrest := ihr hndr X hX j
            simp only [toggleCompletionRecursive, hhead]
            simp only [completedOf, findStepList, if_neg hij, hfc]
            rw [completedOf] at ihrest
            rw [ihrest]
            rfl

/-- C6: `toggleStepCompletion` on a step `X` found in the goal flips `X`'s
`completed` flag and force-sets the same boolean on every descendant of `X`
(every id in `X`'s subtree afterwards carries `!X.completed`), while every
step outside `X`'s subtree — in particular every ancestor of `X` — keeps
its prior `completed` value. -/
theorem claim6_toggle_cascade (goal : Goal) (sid : String) (now : Int) (X : Step)
    (hnd : (allIdsList goal.steps).Nodup) (hfind : findStep goal sid = some X) :
    (∀ j ∈ subtreeIds X,
      completedOf (toggleStepCompletion goal sid now).steps j = some (!X.completed)) ∧
    (∀ j, j ∉ subtreeIds X →
      completedOf (toggleStepCompletion goal sid now).steps j = completedOf goal.steps j) := by
  have main := toggleRec_completedOf sid goal.steps hnd X hfind
  constructor
  · intro j hj
    have := main j
    rw [if_pos hj] at this
    simpa [toggleStepCompletion] using this
  · intro j hj
    have := main j
    rw [if_neg hj] at this
    simpa [toggleStepCompletion] using this

/-- C6 witness: toggling `b` (a leaf, child of `a`) in the goal `a → b`
sets `b`'s flag to true and leaves the ancestor `a` at false. -/
theorem claim6_witness :
    completedOf (toggleStepCompletion demoGoal "b" 3).steps "b" = some true ∧
    completedOf (toggleStepCompletion demoGoal "b" 3).steps "a" =
      completedOf demoGoal.steps "a" := by
  have hnd : (allIdsList demoGoal.steps).Nodup := by
    have h : allIdsList demoGoal.steps = ["a", "b"] := by simp [demoGoal, stepA, stepB]
    rw [h]
    decide
  have hfind : findStep demoGoal "b" = some stepB := by
    simp [findStep, demoGoal, findStepList, stepA, stepB]
  have main := claim6_toggle_cascade demoGoal "b" 3 stepB hnd hfind
  refine ⟨?_, main.2 "a" (by simp [stepB])⟩
  have := main.1 "b" (by simp [stepB])
  simpa [stepB] using this

/-! ## C8: update replaces only title and description -/

theorem updateRec_allIds (u : Step) :
    ∀ l : List Step, allIdsList (updateStepRecursive u l) = allIdsList l := by
  apply forestRec
  · simp [updateStepRecursive]
  · intro i t d c p cs o rest ihc ihr
    by_cases hi : i == u.id
    · have hie : i = u.id := by simpa using hi
      cases u with
      | mk u1 ut ud uc up ucs uo =>
        simp at hie
        simp [updateStepRecursive, hi, ihr, hie]
    · by_cases hl : cs.length > 0
      · simp [updateStepRecursive, hi, hl, ihc, ihr]
      · simp [updateStepRecursive, hi, hl, ihr]

theorem updateRec_found (u : Step) :
    ∀ l : List Step, (allIdsList l).Nodup → ∀ X, findStepList l u.id = some X →
      findStepList (updateStepRecursive u l) u.id = some (u.withChildren X.children) ∧
      (∀ j, ¬ j = u.id →
        fieldsOf (updateStepRecursive u l) j = fieldsOf l j) := by
  apply forestRec
  · intro _ X hX
    simp [findStepList] at hX
  · intro i t d c p cs o rest ihc ihr hnd X hX
    obtain ⟨hic, hir, hndc, hndr, hdisj⟩ := nodup_forest_cons hnd
    by_cases hi : i == u.id
    · have hie : i = u.id := by simpa using hi
      rw [findStepList, if_pos hi] at hX
      have hXv : X = Step.mk i t d c p cs o := by cases hX; rfl
      subst hXv
      have huidr : u.id ∉ allIdsList rest := hie ▸ hir
      have hrid : updateStepRecursive u rest = rest :=
        updateStepRecursive_of_not_mem u rest huidr
      cases u with
      | mk u1 ut ud uc up ucs uo =>
        simp at hie
        constructor
        · simp [updateStepRecursive, hi, hie, hrid, findStepList]
        · intro j hj
          simp at hj
          have hij1 : ¬ ((u1 : String) == j) := by
            simp
            exact fun h => hj h.symm
          have hij2 : ¬ ((i : String) == j) := by
            simp [hie]
            exact fun h => hj h.symm
          simp [updateStepRecursive, hi, hie, hrid, fieldsOf, findStepList, hij1, hij2]
    · have hie : ¬ i = u.id := by simpa using hi
      rw [findStepList, if_neg hi] at hX
      cases hcs : findStepList cs u.id with
      | some Y =>
        rw [hcs] at hX
        have hXY : X = Y := by cases hX; rfl
        subst hXY
        have huidc : u.id ∈ allIdsList cs := mem_allIds_of_find hcs
        have huidr : u.id ∉ allIdsList rest := hdisj _ huidc
        have hrid : updateStepRecursive u rest = rest :=
          updateStepRecursive_of_not_mem u rest huidr
        have hlen : cs.length > 0 := by
          cases cs with
          | nil => simp at huidc
          | cons a as => simp
        obtain ⟨ih1, ih2⟩ := ihc hndc X hcs
        constructor
        · simp [updateStepRecursive, hi, hlen, hrid, findStepList, ih1]
        · intro j hj
          by_cases hij : i == j
          · have hije : i = j := by simpa using hij
            subst hije
            simp [updateStepRecursive, hi, hlen, hrid, fieldsOf, findStepList, ownFields]
          · cases hfc : findStepList cs j with
            | some y =>
              have h2 := ih2 j hj
              obtain ⟨z, hz, hzy⟩ : ∃ z, findStepList (updateStepRecursive u cs) j = some z ∧
                  ownFields z = ownFields y := by
                cases hfz : findStepList (updateStepRecursive u cs) j with
                | none =>
                  have h1 : j ∉ allIdsList (updateStepRecursive u cs) :=
                    (findStepList_eq_none_iff _ j).mp hfz
                  rw [updateRec_allIds] at h1
                  exact absurd (mem_allIds_of_find hfc) h1
                | some z =>
                  rw [fieldsOf, hfz, fieldsOf, hfc] at h2
                  exact ⟨z, rfl, by simpa using h2⟩
              simp [updateStepRecursive, hi, hlen, hrid, fieldsOf, findStepList, hij, hz,
                hzy, hfc]
            | none =>
              have h1 : j ∉ allIdsList cs := (findStepList_eq_none_iff cs j).mp hfc
              have h2 : j ∉ allIdsList (updateStepRecursive u cs) := by
                rw [updateRec_allIds]; exact h1
              have hfz : findStepList (updateStepRecursive u cs) j = none :=
                (findStepList_eq_none_iff _ j).mpr h2
              simp [updateStepRecursive, hi, hlen, hrid, fieldsOf, findStepList, hij, hfz,
                hfc]
      | none =>
        rw [hcs] at hX
        have huidc : u.id ∉ allIdsList cs := (findStepList_eq_none_iff cs u.id).mp hcs
        have hcid : updateStepRecursive u cs = cs :=
          updateStepRecursive_of_not_mem u cs huidc
        have hhead : (if i == u.id then u.withChildren cs
            else if cs.length > 0 then Step.mk i t d c p (updateStepRecursive u cs) o
            else Step.mk i t d c p cs o) = Step.mk i t d c p cs o := by
          rw [if_neg hi]
          by_cases hl : cs.length > 0
          · rw [if_pos hl, hcid]
          · rw [if_neg hl]
        obtain ⟨ih1, ih2⟩ := ihr hndr X hX
        constructor
        · simp only [updateStepRecursive, hhead, findStepList, if_neg hi, hcs, ih1]
        · intro j hj
          by_cases hij : i == j
          · have hije : i = j := by simpa using hij
            subst hije
            simp only [updateStepRecursive, hhead]
            simp [fieldsOf, findStepList]
          · cases hfc : findStepList cs j with
            | some y =>
              simp only [updateStepRecursive, hhead]
              simp [fieldsOf, findStepList, hij, hfc]
            | none =>
              have h2 := ih2 j hj
              simp only [updateStepRecursive, hhead]
              simp only [fieldsOf, findStepList, if_neg hij, hfc]
              rw [fieldsOf] at h2
              rw [h2]
              rfl

/-- C8: the update operation (facade + helper) replaces only the target
step's `title` and `description`: the step found at `stepId` afterwards
carries the new title/description and its old `completed`, `parentId`,
`children` and `order`; every other id keeps all of its own fields; when
the step is not found the facade throws before any mutation (embedded as
`none`, no goal is produced). -/
theorem claim8_update_frame (goal : Goal) (sid ttl : String) (dsc : Option String)
    (now : Int) (hnd : (allIdsList goal.steps).Nodup) :
    (∀ X, findStep goal sid = some X →
      ∃ g', updateStepFacade goal sid ttl dsc now = some g' ∧
        findStepList g'.steps sid =
          some (Step.mk sid ttl dsc X.completed X.parentId X.children X.order) ∧
        (∀ j, ¬ j = sid → fieldsOf g'.steps j = fieldsOf goal.steps j) ∧
        g'.updatedAt = now) ∧
    (findStep goal sid = none → updateStepFacade goal sid ttl dsc now = none) := by
  constructor
  · intro X hX
    have hid : X.id = sid := findStepList_id_of_eq_some hX
    cases X with
    | mk i t d c p cs o =>
      simp at hid
      subst hid
      refine ⟨updateStep goal (.mk i ttl dsc c p cs o) now, ?_, ?_, ?_, ?_⟩
      · simp [updateStepFacade, hX]
      · have main := updateRec_found (.mk i ttl dsc c p cs o) goal.steps hnd
          (.mk i t d c p cs o) (by simpa using hX)
        simpa [updateStep] using main.1
      · intro j hj
        have main := updateRec_found (.mk i ttl dsc c p cs o) goal.steps hnd
          (.mk i t d c p cs o) (by simpa using hX)
        have := main.2 j (by simpa using hj)
        simpa [updateStep] using this
      · simp [updateStep]
  · intro hX
    simp [updateStepFacade, hX]

/-- C8 witness: updating `b`'s title and description in the goal `a → b`
keeps its completion, parent and order, and does not change `a`'s fields;
the missing-id case produces no goal. -/
theorem claim8_witness :
    (∃ g', updateStepFacade demoGoal "b" "B2" (some "dd") 4 = some g' ∧
      findStepList g'.steps "b" =
        some (Step.mk "b" "B2" (some "dd") false (some "a") [] 0) ∧
      (∀ j, ¬ j = "b" → fieldsOf g'.steps j = fieldsOf demoGoal.steps j) ∧
      g'.updatedAt = 4) ∧
    updateStepFacade demoGoal "zz" "t" none 4 = none := by
  have hnd : (allIdsList demoGoal.steps).Nodup := by
    have h : allIdsList demoGoal.steps = ["a", "b"] := by simp [demoGoal, stepA, stepB]
    rw [h]
    decide
  constructor
  · have hfind : findStep demoGoal "b" = some stepB := by
      simp [findStep, demoGoal, findStepList, stepA, stepB]
    have main := (claim8_update_frame demoGoal "b" "B2" (some "dd") 4 hnd).1 stepB hfind
    simpa [stepB] using main
  · have hfind : findStep demoGoal "zz" = none := by
      simp [findStep, demoGoal, findStepList, stepA, stepB]
    exact (claim8_update_frame demoGoal "zz" "t" none 4 hnd).2 hfind

/-! ## C9: goal-list reorder is a splice plus positional renumbering -/

theorem spliceInsert_length (n : Nat) (a : α) (l : List α) :
    (spliceInsert n a l).length = l.length + 1 := by
  simp [spliceInsert]
  omega

theorem renumberGoals_map_order :
    ∀ (l : List Goal) (n : Int), (renumberGoals n l).map Goal.order =
      (List.range l.length).map (fun k => n + Int.ofNat k) := by
  intro l
  induction l with
  | nil => intro n; simp [renumberGoals]
  | cons g rest ih =>
    intro n
    simp only [renumberGoals, List.map_cons, ih (n + 1), List.length_cons,
      List.range_succ_eq_map, List.map_map]
    congr 1
    · simp
    · apply List.map_congr_left
      intro k _
      simp [Function.comp]
      omega

theorem renumberGoals_forget :
    ∀ (l : List Goal) (n : Int),
      (renumberGoals n l).map (fun g => { g with order := 0 }) =
        l.map (fun g => { g with order := 0 }) := by
  intro l
  induction l with
  | nil => intro n; simp [renumberGoals]
  | cons g rest ih =>
    intro n
    simp [renumberGoals, ih (n + 1)]

/-- C9: for in-bounds indices, `reorderGoals` removes the goal at
`sourceIndex`, re-inserts it at `destinationIndex` with list-splice
semantics (shown on the order-erased lists, so the goals themselves —
ids, titles, steps — are moved purely by position), and assigns
`order = 0..N-1` by resulting position. -/
theorem claim9_reorder_goals (l : List Goal) (si di : Nat)
    (hs : si < l.length) (hd : di < l.length) :
    (reorderGoals l si di).map Goal.order =
      (List.range l.length).map Int.ofNat ∧
    (reorderGoals l si di).map (fun g => { g with order := 0 }) =
      (spliceInsert di (l.get ⟨si, hs⟩) (l.eraseIdx si)).map
        (fun g => { g with order := 0 }) := by
  have hget : l[si]? = some (l.get ⟨si, hs⟩) := by
    rw [List.getElem?_eq_getElem hs]
    rfl
  have hlen : (spliceInsert di (l.get ⟨si, hs⟩) (l.eraseIdx si)).length = l.length := by
    rw [spliceInsert_length, List.length_eraseIdx]
    simp [hs]
    omega
  constructor
  · simp only [reorderGoals, hget, renumberGoals_map_order, hlen]
    apply List.map_congr_left
    intro k _
    omega
  · simp only [reorderGoals, hget, renumberGoals_forget]


/-- C9 witness: moving the first of three goals to the last position. -/
theorem claim9_witness :
    (reorderGoals goalsDemo 0 2).map Goal.order =
      (List.range goalsDemo.length).map Int.ofNat ∧
    (reorderGoals goalsDemo 0 2).map (fun g => { g with order := 0 }) =
      (spliceInsert 2 (goalsDemo.get ⟨0, by simp [goalsDemo]⟩) (goalsDemo.eraseIdx 0)).map
        (fun g => { g with order := 0 }) :=
  claim9_reorder_goals goalsDemo 0 2 (by simp [goalsDemo]) (by simp [goalsDemo])

/-! ## Machinery for `moveStepToParent` -/

theorem subtreeIds_subset_of_mem :
    ∀ l : List Step, ∀ s ∈ l, ∀ j ∈ subtreeIds s, j ∈ allIdsList l := by
  intro l
  induction l with
  | nil => simp
  | cons a rest ih =>
    intro s hs j hj
    cases a with
    | mk i t d c p cs o =>
      rcases List.mem_cons.mp hs with hseq | hsmem
      · subst hseq
        simp at hj ⊢
        tauto
      · have := ih s hsmem j hj
        simp
        tauto

theorem mem_allIds_iff_exists (j : String) :
    ∀ l : List Step, j ∈ allIdsList l ↔ ∃ s ∈ l, j ∈ subtreeIds s := by
  intro l
  induction l with
  | nil => simp
  | cons a rest ih =>
    cases a with
    | mk i t d c p cs o =>
      simp only [allIdsList_cons, List.mem_cons, List.mem_append, ih]
      constructor
      · rintro (hj | hj | ⟨s, hs, hjs⟩)
        · exact ⟨Step.mk i t d c p cs o, Or.inl rfl, by simp [hj]⟩
        · exact ⟨Step.mk i t d c p cs o, Or.inl rfl, by simp [hj]⟩
        · exact ⟨s, Or.inr hs, hjs⟩
      · rintro ⟨s, hs | hs, hjs⟩
        · subst hs
          simp at hjs
          tauto
        · exact Or.inr (Or.inr ⟨s, hs, hjs⟩)

/-- If no element of `l` with a different id hides `sid` in its children,
the root-level filter of `removeStepFromParent` agrees with
`deleteStepRecursive`. -/
theorem filter_eq_deleteRec (sid : String) :
    ∀ l : List Step, (∀ s ∈ l, ¬ s.id = sid → sid ∉ allIdsList s.children) →
      l.filter (fun s => !(s.id == sid)) = deleteStepRecursive sid l := by
  intro l
  induction l with
  | nil => simp [deleteStepRecursive]
  | cons a rest ih =>
    intro hcond
    cases a with
    | mk i t d c p cs o =>
      by_cases hi : i == sid
      · simp [deleteStepRecursive, hi, ih (fun s hs => hcond s (List.mem_cons_of_mem _ hs))]
      · have hie : ¬ i = sid := by simpa using hi
        have hnotc : sid ∉ allIdsList cs := by
          have := hcond (Step.mk i t d c p cs o) (List.mem_cons_self _ _)
          simpa [hie] using this
        simp [deleteStepRecursive, hi, deleteStepRecursive_of_not_mem sid cs hnotc,
          ih (fun s hs => hcond s (List.mem_cons_of_mem _ hs))]

/-- Under global id uniqueness, if `sid` occurs among the root ids of `l`,
then no root with a different id hides `sid` in its subtree. -/
theorem cond_of_nodup_root (sid : String) :
    ∀ l : List Step, (allIdsList l).Nodup → (∃ r ∈ l, r.id = sid) →
      ∀ s ∈ l, ¬ s.id = sid → sid ∉ allIdsList s.children := by
  intro l
  induction l with
  | nil => simp
  | cons a rest ih =>
    intro hnd hroot s hs hsid
    cases a with
    | mk i t d c p cs o =>
      obtain ⟨hic, hir, hndc, hndr, hdisj⟩ := nodup_forest_cons hnd
      obtain ⟨r, hr, hrid⟩ := hroot
      rcases List.mem_cons.mp hs with hseq | hsmem
      · subst hseq
        simp at hsid
        rcases List.mem_cons.mp hr with hreq | hrmem
        · subst hreq
          simp at hrid
          exact absurd hrid hsid
        · have hsidr : sid ∈ allIdsList rest := by
            rw [← hrid]
            exact mem_allIds_of_mem_self hrmem
          intro hmem
          simp at hmem
          exact hdisj sid hmem hsidr
      · rcases List.mem_cons.mp hr with hreq | hrmem
        · subst hreq
          simp at hrid
          intro hmem
          have h1 : sid ∈ subtreeIds s := by
            cases s with
            | mk si st sd sc sp scs so =>
              simp at hmem ⊢
              exact Or.inr hmem
          have h2 : sid ∈ allIdsList rest := subtreeIds_subset_of_mem rest s hsmem sid h1
          rw [← hrid] at h2
          exact hir h2
        · exact ih hndr ⟨r, hrmem, hrid⟩ s hsmem hsid

theorem removeStep_eq_deleteRec (sid : String) :
    ∀ l : List Step, (allIdsList l).Nodup →
      removeStepFromParent sid l = deleteStepRecursive sid l := by
  apply forestRec
  · intro _
    simp [removeStepFromParent, removeStepChildrenMap, deleteStepRecursive]
  · intro i t d c p cs o rest ihc ihr hnd
    obtain ⟨hic, hir, hndc, hndr, hdisj⟩ := nodup_forest_cons hnd
    by_cases hany : (Step.mk i t d c p cs o :: rest).any (fun s => s.id == sid)
    · rw [removeStepFromParent, if_pos hany]
      apply filter_eq_deleteRec
      apply cond_of_nodup_root sid _ hnd
      simp only [List.any_eq_true] at hany
      obtain ⟨r, hr, hrid⟩ := hany
      exact ⟨r, hr, by simpa using hrid⟩
    · rw [removeStepFromParent, if_neg hany]
      simp only [List.any_cons, Bool.or_eq_true, not_or] at hany
      obtain ⟨hihead, hanyrest⟩ := hany
      have hih2 : ¬ (i == sid) := by simpa using hihead
      have hrest : removeStepChildrenMap sid rest = deleteStepRecursive sid rest := by
        have h1 : removeStepFromParent sid rest = removeStepChildrenMap sid rest := by
          rw [removeStepFromParent, if_neg (by simpa using hanyrest)]
        rw [← h1]
        exact ihr hndr
      rw [removeStepChildrenMap, hrest, deleteStepRecursive, if_neg hih2]
      congr 1
      by_cases hcs : cs.any (fun s => s.id == sid)
      · rw [if_pos hcs]
        congr 1
        apply filter_eq_deleteRec
        apply cond_of_nodup_root sid cs hndc
        simp only [List.any_eq_true] at hcs
        obtain ⟨r, hr, hrid⟩ := hcs
        exact ⟨r, hr, by simpa using hrid⟩
      · rw [if_neg hcs]
        congr 1
        exact ihc hndc

theorem stepCountStep_pos (s : Step) : 1 ≤ stepCountStep s := by
  cases s with
  | mk i t d c p cs o => simp [stepCountStep]

theorem stepCountStep_le_of_mem : ∀ l : List Step, ∀ s ∈ l, stepCountStep s ≤ stepCountList l := by
  intro l
  induction l with
  | nil => simp
  | cons a rest ih =>
    intro s hs
    rcases List.mem_cons.mp hs with hseq | hsmem
    · subst hseq
      simp [stepCountList]
    · have := ih s hsmem
      simp [stepCountList]
      omega

theorem stepCountStep_le_of_mem_nodes :
    ∀ l : List Step, ∀ s ∈ nodesList l, stepCountStep s ≤ stepCountList l := by
  apply forestRec
  · simp
  · intro i t d c p cs o rest ihc ihr s hs
    simp at hs
    have hc : stepCountList (Step.mk i t d c p cs o :: rest) =
        (1 + stepCountList cs) + stepCountList rest := by
      simp [stepCountList, stepCountStep]
    rcases hs with hs | hs | hs
    · subst hs
      simp [stepCountList, stepCountStep]
    · have := ihc s hs
      omega
    · have := ihr s hs
      omega

/-- Soundness of the fuelled `isDescendant` under unique ids: a `true`
answer means the target really is a strict descendant of the node named
`pid`. -/
theorem isDescendantFuel_sound (goal : Goal)
    (hnd : (allIdsList goal.steps).Nodup) :
    ∀ (fuel : Nat) (pid target : String),
      isDescendantFuel goal fuel pid target = true →
        ∃ P, findStep goal pid = some P ∧ target ∈ descendantIds P := by
  intro fuel
  induction fuel with
  | zero => intro pid target h; simp [isDescendantFuel] at h
  | succ fuel ih =>
    intro pid target h
    rw [isDescendantFuel] at h
    cases hfind : findStep goal pid with
    | none => rw [hfind] at h; cases h
    | some parent =>
      rw [hfind] at h
      refine ⟨parent, rfl, ?_⟩
      simp only [List.any_eq_true, Bool.or_eq_true] at h
      obtain ⟨child, hchild, hcase⟩ := h
      rcases hcase with hcase | hcase
      · have : child.id = target := by simpa using hcase
        rw [← this]
        exact mem_allIds_of_mem_self hchild
      · obtain ⟨C, hCfind, hCtar⟩ := ih child.id target hcase
        have hnode : child ∈ nodesList goal.steps :=
          children_mem_nodes_of_find hfind child hchild
        have hCchild : C = child := by
          have h1 := find_of_mem_nodes goal.steps hnd child hnode
          rw [findStep] at hCfind
          rw [h1] at hCfind
          cases hCfind
          rfl
        subst hCchild
        have : target ∈ subtreeIds C := by
          cases C with
          | mk ci ct cd cc cp ccs co =>
            simp [descendantIds] at hCtar
            simp [hCtar]
        exact subtreeIds_subset_of_mem parent.children C hchild target this

/-- Completeness of the fuelled `isDescendant` under unique ids: with fuel
at least the subtree size it recognises every strict descendant. -/
theorem isDescendantFuel_complete (goal : Goal)
    (hnd : (allIdsList goal.steps).Nodup) :
    ∀ (fuel : Nat) (P : Step), P ∈ nodesList goal.steps → stepCountStep P ≤ fuel →
      ∀ target, target ∈ descendantIds P →
        isDescendantFuel goal fuel P.id target = true := by
  intro fuel
  induction fuel with
  | zero =>
    intro P _ hcount
    have := stepCountStep_pos P
    omega
  | succ fuel ih =>
    intro P hP hcount target htar
    rw [isDescendantFuel]
    have hfind : findStep goal P.id = some P := find_of_mem_nodes goal.steps hnd P hP
    rw [findStep] at hfind
    rw [show findStep goal P.id = some P from hfind]
    simp only [List.any_eq_true, Bool.or_eq_true]
    rw [descendantIds, mem_allIds_iff_exists] at htar
    obtain ⟨child, hchild, htar⟩ := htar
    refine ⟨child, hchild, ?_⟩
    cases child with
    | mk ci ct cd cc cp ccs co =>
      simp at htar
      rcases htar with htar | htar
      · subst htar
        simp
      · right
        have hnode : Step.mk ci ct cd cc cp ccs co ∈ nodesList goal.steps :=
          children_mem_nodes_of_find hfind _ hchild
        have hcnt : stepCountStep (Step.mk ci ct cd cc cp ccs co) ≤ fuel := by
          have h1 : stepCountStep (Step.mk ci ct cd cc cp ccs co) ≤
              stepCountList P.children := stepCountStep_le_of_mem P.children _ hchild
          have h2 : stepCountList P.children + 1 ≤ stepCountStep P := by
            cases P with
            | mk pi pt pd pc pp pcs po => simp [stepCountStep]; omega
          omega
        have := ih (Step.mk ci ct cd cc cp ccs co) hnode hcnt target
          (by simp [descendantIds, htar])
        simpa using this

theorem nodup_subtreeIds_of_find {l : List Step} {sid : String} {X : Step}
    (hnd : (allIdsList l).Nodup) (h : findStepList l sid = some X) :
    (subtreeIds X).Nodup := by
  induction l, sid using findStepList.induct with
  | case1 sid => simp [findStepList] at h
  | case2 i t d c p cs o rest sid heq =>
    rw [findStepList, if_pos heq] at h
    have hXv : X = Step.mk i t d c p cs o := by cases h; rfl
    subst hXv
    simp only [subtreeIds_mk]
    have hsub : (i :: allIdsList cs).Sublist (allIdsList (Step.mk i t d c p cs o :: rest)) := by
      rw [allIdsList_cons]
      exact List.Sublist.cons₂ i (List.sublist_append_left _ _)
    exact hnd.sublist hsub
  | case3 i t d c p cs o rest sid hne f hf ihc =>
    rw [findStepList, if_neg hne, hf] at h
    have hXf : X = f := by cases h; rfl
    subst hXf
    obtain ⟨_, _, hndc, _, _⟩ := nodup_forest_cons hnd
    exact ihc hndc hf
  | case4 i t d c p cs o rest sid hne hnone ihc ihr =>
    rw [findStepList, if_neg hne, hnone] at h
    obtain ⟨_, _, _, hndr, _⟩ := nodup_forest_cons hnd
    exact ihr hndr h

/-! ## C10: a self-targeted move silently discards the step -/

/-- C10: with unique ids, `moveStepToParent(goal, S.id, S.id)` is not
rejected (the descendant check does not cover the node itself); the step is
detached and the re-attach searches for its id in the forest it was just
removed from, so `S` and its entire subtree vanish: afterwards no id of
`S`'s subtree is present, while every other id is present exactly as
before. -/
theorem claim10_self_move_discards (goal : Goal) (sid : String) (now : Int) (X : Step)
    (hnd : (allIdsList goal.steps).Nodup) (hfind : findStep goal sid = some X) :
    (∀ j ∈ subtreeIds X, j ∉ allIdsList (moveStepToParent goal sid (some sid) now).steps) ∧
    (∀ j, j ∉ subtreeIds X →
      (j ∈ allIdsList (moveStepToParent goal sid (some sid) now).steps ↔
        j ∈ allIdsList goal.steps)) := by
  have hXid : X.id = sid := findStepList_id_of_eq_some hfind
  have hXsub : sid ∈ subtreeIds X := by
    cases X with
    | mk i t d c p cs o =>
      simp at hXid
      simp [hXid]
  have hdesc : isDescendantFuel goal (stepCountList goal.steps + 1) sid sid = false := by
    by_contra hcon
    rw [Bool.not_eq_false] at hcon
    obtain ⟨P, hP, hPdesc⟩ := isDescendantFuel_sound goal hnd _ sid sid hcon
    rw [hfind] at hP
    have hPX : P = X := by cases hP; rfl
    subst hPX
    have hnsub := nodup_subtreeIds_of_find hnd hfind
    cases P with
    | mk i t d c p cs o =>
      simp at hXid
      subst hXid
      simp [descendantIds] at hPdesc
      simp at hnsub
      exact hnsub.1 hPdesc
  have hsteps : (moveStepToParent goal sid (some sid) now).steps =
      deleteStepRecursive sid goal.steps := by
    simp only [moveStepToParent, hfind, hdesc]
    simp only [Bool.false_eq_true, if_false]
    rw [removeStep_eq_deleteRec sid goal.steps hnd]
    apply addStepToNewParent_of_not_mem
    rw [deleteRec_mem_iff sid goal.steps hnd X hfind sid]
    simp [hXsub]
  rw [hsteps]
  have hmem := deleteRec_mem_iff sid goal.steps hnd X hfind
  constructor
  · intro j hj
    rw [hmem j]
    tauto
  · intro j hj
    rw [hmem j]
    tauto

/-- C10 witness: moving `a` onto itself in the goal `a → b` discards both
`a` and its child `b`. -/
theorem claim10_witness :
    "a" ∉ allIdsList (moveStepToParent demoGoal "a" (some "a") 9).steps ∧
    "b" ∉ allIdsList (moveStepToParent demoGoal "a" (some "a") 9).steps := by
  have hnd : (allIdsList demoGoal.steps).Nodup := by
    have h : allIdsList demoGoal.steps = ["a", "b"] := by simp [demoGoal, stepA, stepB]
    rw [h]
    decide
  have hfind : findStep demoGoal "a" = some stepA := by
    simp [findStep, demoGoal, findStepList, stepA]
  have main := claim10_self_move_discards demoGoal "a" 9 stepA hnd hfind
  exact ⟨main.1 "a" (by simp [stepA, stepB]), main.1 "b" (by simp [stepA, stepB])⟩

/-! ## C1: the illegal-move guard covers descendants but not the node itself -/

/-- C1, counterexample: the claim also asserts a no-op for
`target = A.id`, but the self-targeted move is not rejected: on the goal
`a → b`, `moveStepToParent(G, "a", "a")` does not return `G` (it discards
the step instead). -/
theorem claim1_counterexample : moveStepToParent demoGoal "a" (some "a") 9 ≠ demoGoal := by
  intro h
  have hsteps := congrArg Goal.steps h
  simp [moveStepToParent, findStep, findStepList, demoGoal, stepA, stepB, isDescendantFuel,
    stepCountList, stepCountStep, removeStepFromParent, removeStepChildrenMap,
    addStepToNewParent, getMaxOrder] at hsteps

/-- C1 (amended): for every goal with unique step ids, every step `A`
found in it and every `target` that is a STRICT descendant of `A`,
`moveStepToParent(goal, A.id, target)` returns the goal unchanged (the
cycle-creating move is rejected as a no-op).  For `target = A.id` the
operation is not a no-op: the step is silently discarded (see the
counterexample and C10). -/
theorem claim1_move_to_descendant_rejected (goal : Goal) (sid target : String) (now : Int)
    (X : Step) (hnd : (allIdsList goal.steps).Nodup) (hfind : findStep goal sid = some X)
    (htar : target ∈ descendantIds X) :
    moveStepToParent goal sid (some target) now = goal := by
  have hXid : X.id = sid := findStepList_id_of_eq_some hfind
  have hnode : X ∈ nodesList goal.steps := mem_nodes_of_find hfind
  have hcnt : stepCountStep X ≤ stepCountList goal.steps + 1 := by
    have := stepCountStep_le_of_mem_nodes goal.steps X hnode
    omega
  have hdesc := isDescendantFuel_complete goal hnd (stepCountList goal.steps + 1) X hnode
    hcnt target htar
  rw [hXid] at hdesc
  simp only [moveStepToParent, hfind, hdesc, if_true]

/-- C1 witness: on the goal `a → b`, moving `a` under its descendant `b`
returns the goal unchanged. -/
theorem claim1_witness : moveStepToParent demoGoal "a" (some "b") 9 = demoGoal := by
  have hnd : (allIdsList demoGoal.steps).Nodup := by
    have h : allIdsList demoGoal.steps = ["a", "b"] := by simp [demoGoal, stepA, stepB]
    rw [h]
    decide
  have hfind : findStep demoGoal "a" = some stepA := by
    simp [findStep, demoGoal, findStepList, stepA]
  exact claim1_move_to_descendant_rejected demoGoal "a" "b" 9 stepA hnd hfind
    (by simp [descendantIds, stepA, stepB])

/-! ## C5: parent consistency (invariant I3) -/

@[simp] theorem parentOkStep_mk :
    parentOkStep e (Step.mk i t d c p cs o) = ((p == e) && parentOkList (some i) cs) := by
  simp [parentOkStep]

@[simp] theorem parentOkList_nil : parentOkList e [] = true := by
  simp [parentOkList]

@[simp] theorem parentOkList_cons :
    parentOkList e (s :: rest) = (parentOkStep e s && parentOkList e rest) := by
  simp [parentOkList]

theorem parentOkList_append (e : Option String) (l1 l2 : List Step) :
    parentOkList e (l1 ++ l2) = (parentOkList e l1 && parentOkList e l2) := by
  induction l1 with
  | nil => simp
  | cons s rest ih => simp [ih, Bool.and_assoc]

theorem parentOkList_iff_forall (e : Option String) :
    ∀ l : List Step, parentOkList e l = true ↔ ∀ s ∈ l, parentOkStep e s = true := by
  intro l
  induction l with
  | nil => simp
  | cons s rest ih => simp [ih]

theorem parentOk_deleteRec (sid : String) :
    ∀ l : List Step, ∀ e, parentOkList e l = true →
      parentOkList e (deleteStepRecursive sid l) = true := by
  apply forestRec
  · intro e _
    simp [deleteStepRecursive]
  · intro i t d c p cs o rest ihc ihr e hok
    simp at hok
    obtain ⟨⟨hpe, hcs⟩, hrest⟩ := hok
    by_cases hi : i == sid
    · simp only [deleteStepRecursive, if_pos hi]
      exact ihr e hrest
    · simp only [deleteStepRecursive, if_neg hi]
      simp [hpe, ihc (some i) hcs, ihr e hrest]

theorem parentOk_toggleForce (b : Bool) :
    ∀ l : List Step, ∀ e, parentOkList e (toggleForce b l) = parentOkList e l := by
  apply forestRec
  · intro e
    simp [toggleForce]
  · intro i t d c p cs o rest ihc ihr e
    simp [toggleForce, ihc (some i), ihr e]

theorem parentOk_toggleRec (sid : String) :
    ∀ l : List Step, ∀ e, parentOkList e l = true →
      parentOkList e (toggleCompletionRecursive sid l) = true := by
  apply forestRec
  · intro e _
    simp [toggleCompletionRecursive]
  · intro i t d c p cs o rest ihc ihr e hok
    simp at hok
    obtain ⟨⟨hpe, hcs⟩, hrest⟩ := hok
    by_cases hi : i == sid
    · simp only [toggleCompletionRecursive, if_pos hi]
      simp [hpe, parentOk_toggleForce, hcs, ihr e hrest]
    · by_cases hl : cs.length > 0
      · simp only [toggleCompletionRecursive, if_neg hi, if_pos hl]
        simp [hpe, ihc (some i) hcs, ihr e hrest]
      · simp only [toggleCompletionRecursive, if_neg hi, if_neg hl]
        simp [hpe, hcs, ihr e hrest]

theorem parentOk_addStepRec (pid : String) (st : Step)
    (hst : parentOkStep (some pid) st = true) :
    ∀ l : List Step, ∀ e, parentOkList e l = true →
      parentOkList e (addStepRecursive pid st l) = true := by
  apply forestRec
  · intro e _
    simp [addStepRecursive]
  · intro i t d c p cs o rest ihc ihr e hok
    simp at hok
    obtain ⟨⟨hpe, hcs⟩, hrest⟩ := hok
    by_cases hi : i == pid
    · have hie : i = pid := by simpa using hi
      subst hie
      simp only [addStepRecursive, if_pos hi]
      simp [hpe, parentOkList_append, hcs, hst, ihr e hrest]
    · by_cases hl : cs.length > 0
      · simp only [addStepRecursive, if_neg hi, if_pos hl]
        simp [hpe, ihc (some i) hcs, ihr e hrest]
      · simp only [addStepRecursive, if_neg hi, if_neg hl]
        simp [hpe, hcs, ihr e hrest]

theorem parentOk_updateRec (u : Step) :
    ∀ l : List Step, (allIdsList l).Nodup → ∀ X, findStepList l u.id = some X →
      u.parentId = X.parentId →
      ∀ e, parentOkList e l = true → parentOkList e (updateStepRecursive u l) = true := by
  apply forestRec
  · intro _ X hX
    simp [findStepList] at hX
  · intro i t d c p cs o rest ihc ihr hnd X hX hpar e hok
    obtain ⟨hic, hir, hndc, hndr, hdisj⟩ := nodup_forest_cons hnd
    simp at hok
    obtain ⟨⟨hpe, hcs⟩, hrest⟩ := hok
    by_cases hi : i == u.id
    · have hie : i = u.id := by simpa using hi
      rw [findStepList, if_pos hi] at hX
      have hXv : X = Step.mk i t d c p cs o := by cases hX; rfl
      subst hXv
      have huidr : u.id ∉ allIdsList rest := hie ▸ hir
      have hrid : updateStepRecursive u rest = rest :=
        updateStepRecursive_of_not_mem u rest huidr
      simp only [updateStepRecursive, if_pos hi, hrid]
      cases u with
      | mk u1 ut ud uc up ucs uo =>
        simp at hie hpar
        simp [hpar, hpe, hie ▸ hcs, hrest]
    · rw [findStepList, if_neg hi] at hX
      cases hcs2 : findStepList cs u.id with
      | some Y =>
        rw [hcs2] at hX
        have hXY : X = Y := by cases hX; rfl
        subst hXY
        have huidc : u.id ∈ allIdsList cs := mem_allIds_of_find hcs2
        have huidr : u.id ∉ allIdsList rest := hdisj _ huidc
        have hrid : updateStepRecursive u rest = rest :=
          updateStepRecursive_of_not_mem u rest huidr
        have hlen : cs.length > 0 := by
          cases cs with
          | nil => simp at huidc
          | cons a as => simp
        simp only [updateStepRecursive, if_neg hi, if_pos hlen, hrid]
        simp [hpe, ihc hndc X hcs2 hpar (some i) hcs, hrest]
      | none =>
        rw [hcs2] at hX
        have huidc : u.id ∉ allIdsList cs := (findStepList_eq_none_iff cs u.id).mp hcs2
        have hcid : updateStepRecursive u cs = cs :=
          updateStepRecursive_of_not_mem u cs huidc
        have hhead : (if i == u.id then u.withChildren cs
            else if cs.length > 0 then Step.mk i t d c p (updateStepRecursive u cs) o
            else Step.mk i t d c p cs o) = Step.mk i t d c p cs o := by
          rw [if_neg hi]
          by_cases hl : cs.length > 0
          · rw [if_pos hl, hcid]
          · rw [if_neg hl]
        simp only [updateStepRecursive, hhead]
        simp [hpe, hcs, ihr hndr X hX hpar e hrest]

theorem parentOk_children_of_find :
    ∀ (l : List Step) (sid : String), ∀ X, findStepList l sid = some X →
      ∀ e, parentOkList e l = true → parentOkList (some X.id) X.children = true := by
  intro l sid
  induction l, sid using findStepList.induct with
  | case1 sid =>
    intro X hX
    simp [findStepList] at hX
  | case2 i t d c p cs o rest sid heq =>
    intro X hX e hok
    rw [findStepList, if_pos heq] at hX
    have hXv : X = Step.mk i t d c p cs o := by cases hX; rfl
    subst hXv
    simp at hok ⊢
    exact hok.1.2
  | case3 i t d c p cs o rest sid hne f hf ihc =>
    intro X hX e hok
    rw [findStepList, if_neg hne, hf] at hX
    have hXf : X = f := by cases hX; rfl
    subst hXf
    simp at hok
    exact ihc X hf (some i) hok.1.2
  | case4 i t d c p cs o rest sid hne hnone ihc ihr =>
    intro X hX e hok
    rw [findStepList, if_neg hne, hnone] at hX
    simp at hok
    exact ihr X hX e hok.2

theorem parentOk_addToNewParent (goal : Goal) (pid : String) (mv : Step)
    (hmvp : mv.parentId = some pid)
    (hmvc : parentOkList (some mv.id) mv.children = true) :
    ∀ l : List Step, ∀ e, parentOkList e l = true →
      parentOkList e (addStepToNewParent goal pid mv l) = true := by
  apply forestRec
  · intro e _
    simp [addStepToNewParent]
  · intro i t d c p cs o rest ihc ihr e hok
    simp at hok
    obtain ⟨⟨hpe, hcs⟩, hrest⟩ := hok
    by_cases hi : i == pid
    · have hie : i = pid := by simpa using hi
      subst hie
      simp only [addStepToNewParent, if_pos hi, parentOkList_cons, parentOkStep_mk,
        parentOkList_append, Bool.and_eq_true]
      refine ⟨⟨by simp [hpe], hcs, ?_⟩, ihr e hrest⟩
      cases mv with
      | mk m1 mt md mc mp mcs mo =>
        simp at hmvp hmvc
        simp [hmvp, hmvc]
    · by_cases hl : cs.length > 0
      · simp only [addStepToNewParent, if_neg hi, if_pos hl]
        simp [hpe, ihc (some i) hcs, ihr e hrest]
      · simp only [addStepToNewParent, if_neg hi, if_neg hl]
        simp [hpe, hcs, ihr e hrest]

theorem mem_of_getElem?_some {l : List α} {i : Nat} {a : α} (h : l[i]? = some a) : a ∈ l := by
  obtain ⟨hi, rfl⟩ := List.getElem?_eq_some_iff.mp h
  exact List.getElem_mem hi

theorem parentOk_renumberSteps :
    ∀ (l : List Step) (e : Option String) (n : Int),
      parentOkList e (renumberSteps n l) = parentOkList e l := by
  intro l
  induction l with
  | nil => intro e n; simp [renumberSteps]
  | cons s rest ih =>
    intro e n
    cases s with
    | mk i t d c p cs o => simp [renumberSteps, ih]

theorem mem_of_mem_spliceInsert {s : α} {n : Nat} {a : α} {l : List α}
    (h : s ∈ spliceInsert n a l) : s = a ∨ s ∈ l := by
  rw [spliceInsert] at h
  rw [List.mem_append] at h
  rcases h with h | h
  · exact Or.inr (List.take_subset n l h)
  · rcases List.mem_cons.mp h with h | h
    · exact Or.inl h
    · exact Or.inr (List.drop_subset n l h)

theorem parentOk_reorderRoot (sid : String) (n : Nat) (l : List Step) (e : Option String)
    (hok : parentOkList e l = true) : parentOkList e (reorderRootLevel sid n l) = true := by
  cases hidx : l.findIdx? (fun s => s.id == sid) with
  | none =>
    simp only [reorderRootLevel, hidx]
    exact hok
  | some si =>
    cases hget : l[si]? with
    | none =>
      simp only [reorderRootLevel, hidx, hget]
      exact hok
    | some moved =>
      simp only [reorderRootLevel, hidx, hget]
      rw [parentOk_renumberSteps]
      rw [parentOkList_iff_forall] at hok ⊢
      intro s hs
      rcases mem_of_mem_spliceInsert hs with hs | hs
      · subst hs
        exact hok s (mem_of_getElem?_some hget)
      · exact hok s ((List.eraseIdx_sublist l si).subset hs)

theorem parentOk_reorderWithParent (sid : String) (n : Nat) (pid : String) :
    ∀ l : List Step, ∀ e, parentOkList e l = true →
      parentOkList e (reorderWithParent sid n pid l) = true := by
  apply forestRec
  · intro e _
    simp [reorderWithParent]
  · intro i t d c p cs o rest ihc ihr e hok
    simp at hok
    obtain ⟨⟨hpe, hcs⟩, hrest⟩ := hok
    by_cases hi : i == pid
    · cases hidx : cs.findIdx? (fun s => s.id == sid) with
      | none =>
        simp only [reorderWithParent, if_pos hi, hidx]
        simp [hpe, hcs, ihr e hrest]
      | some si =>
        cases hget : cs[si]? with
        | none =>
          simp only [reorderWithParent, if_pos hi, hidx, hget]
          simp [hpe, hcs, ihr e hrest]
        | some moved =>
          simp only [reorderWithParent, if_pos hi, hidx, hget, parentOkList_cons,
            parentOkStep_mk, Bool.and_eq_true]
          refine ⟨⟨by simp [hpe], ?_⟩, ihr e hrest⟩
          rw [parentOk_renumberSteps]
          rw [parentOkList_iff_forall] at hcs ⊢
          intro s hs
          rcases mem_of_mem_spliceInsert hs with hs | hs
          · subst hs
            exact hcs s (mem_of_getElem?_some hget)
          · exact hcs s ((List.eraseIdx_sublist cs si).subset hs)
    · by_cases hl : cs.length > 0
      · simp only [reorderWithParent, if_neg hi, if_pos hl]
        simp [hpe, ihc (some i) hcs, ihr e hrest]
      · simp only [reorderWithParent, if_neg hi, if_neg hl]
        simp [hpe, hcs, ihr e hrest]

theorem parentOk_move (goal : Goal) (sid : String) (pidOpt : Option String) (now : Int)
    (hnd : (allIdsList goal.steps).Nodup)
    (hok : parentOkList none goal.steps = true) :
    parentOkList none (moveStepToParent goal sid pidOpt now).steps = true := by
  cases hfind : findStep goal sid with
  | none => simp [moveStepToParent, hfind, hok]
  | some X =>
    have hchildren : parentOkList (some X.id) X.children = true :=
      parentOk_children_of_find goal.steps sid X hfind none hok
    have hdel : parentOkList none (deleteStepRecursive sid goal.steps) = true :=
      parentOk_deleteRec sid goal.steps none hok
    cases pidOpt with
    | none =>
      simp only [moveStepToParent, hfind]
      simp only [Bool.false_eq_true, if_false]
      rw [removeStep_eq_deleteRec sid goal.steps hnd, parentOkList_append]
      simp only [hdel, Bool.true_and]
      cases X with
      | mk i t d c p cs o =>
        simp at hchildren
        simp [hchildren]
    | some pid =>
      by_cases hdesc : isDescendantFuel goal (stepCountList goal.steps + 1) sid pid
      · simp [moveStepToParent, hfind, hdesc, hok]
      · simp only [moveStepToParent, hfind, Bool.not_eq_true] at hdesc ⊢
        simp only [hdesc, Bool.false_eq_true, if_false]
        rw [removeStep_eq_deleteRec sid goal.steps hnd]
        apply parentOk_addToNewParent goal pid (X.withParentId (some pid))
        · cases X with
          | mk i t d c p cs o => simp
        · cases X with
          | mk i t d c p cs o => simpa using hchildren
        · exact hdel

/-- C5 (amended): every mutation except `duplicateStep` preserves parent
consistency (I3): insertion (at the facade, which stamps the new leaf's
`parentId` with the target parent id), update (at the facade, which
preserves the found step's `parentId`), delete, cascade toggle, sibling
reorder, and re-parenting all map an I3-consistent forest to an
I3-consistent forest; `moveStepToParent` in particular keeps the moved
step's `parentId` in sync.  `duplicateStep` does NOT preserve I3 — see the
counterexample: copied descendants keep the original nodes' parent ids. -/
theorem claim5_i3_preservation :
    (∀ (goal : Goal) (newId ttl : String) (dsc : Option String) (pidOpt : Option String)
        (now : Int), parentOkList none goal.steps = true →
        parentOkList none (addStepFacade goal newId ttl dsc pidOpt now).steps = true) ∧
    (∀ (goal : Goal) (sid ttl : String) (dsc : Option String) (now : Int) (g' : Goal),
        (allIdsList goal.steps).Nodup → parentOkList none goal.steps = true →
        updateStepFacade goal sid ttl dsc now = some g' →
        parentOkList none g'.steps = true) ∧
    (∀ (goal : Goal) (sid : String) (now : Int), parentOkList none goal.steps = true →
        parentOkList none (deleteStep goal sid now).steps = true) ∧
    (∀ (goal : Goal) (sid : String) (now : Int), parentOkList none goal.steps = true →
        parentOkList none (toggleStepCompletion goal sid now).steps = true) ∧
    (∀ (goal : Goal) (sid : String) (n : Nat) (pidOpt : Option String) (now : Int),
        parentOkList none goal.steps = true →
        parentOkList none (reorderStep goal sid n pidOpt now).steps = true) ∧
    (∀ (goal : Goal) (sid : String) (pidOpt : Option String) (now : Int),
        (allIdsList goal.steps).Nodup → parentOkList none goal.steps = true →
        parentOkList none (moveStepToParent goal sid pidOpt now).steps = true) := by
  refine ⟨?_, ?_, ?_, ?_, ?_, ?_⟩
  · intro goal newId ttl dsc pidOpt now hok
    cases pidOpt with
    | none =>
      simp only [addStepFacade, addStep]
      rw [parentOkList_append]
      simp [hok]
    | some pid =>
      simp only [addStepFacade, addStep]
      apply parentOk_addStepRec pid _ (by simp) goal.steps none hok
  · intro goal sid ttl dsc now g' hnd hok hfac
    cases hfind : findStep goal sid with
    | none => simp [updateStepFacade, hfind] at hfac
    | some X =>
      cases X with
      | mk i t d c p cs o =>
        have hid : i = sid := by
          have := findStepList_id_of_eq_some hfind
          simpa using this
        rw [updateStepFacade, hfind] at hfac
        have hg' : g' = updateStep goal (.mk i ttl dsc c p cs o) now := by
          cases hfac
          rfl
        subst hg'
        simp only [updateStep]
        apply parentOk_updateRec (.mk i ttl dsc c p cs o) goal.steps hnd
          (.mk i t d c p cs o) (by simpa [hid] using hfind) (by simp) none hok
  · intro goal sid now hok
    simp only [deleteStep]
    exact parentOk_deleteRec sid goal.steps none hok
  · intro goal sid now hok
    simp only [toggleStepCompletion]
    exact parentOk_toggleRec sid goal.steps none hok
  · intro goal sid n pidOpt now hok
    cases pidOpt with
    | none =>
      simp only [reorderStep]
      exact parentOk_reorderRoot sid n goal.steps none hok
    | some pid =>
      simp only [reorderStep]
      exact parentOk_reorderWithParent sid n pid goal.steps none hok
  · intro goal sid pidOpt now hnd hok
    exact parentOk_move goal sid pidOpt now hnd hok

/-- C5, counterexample: `duplicateStep` violates parent consistency.  On
the I3-consistent goal `a → b`, duplicating `a` produces a copy whose child
keeps `parentId = "a"` although its structural parent is the fresh copy
(id `"dup"`), so I3 fails on the result. -/
theorem claim5_counterexample :
    parentOkList none demoGoal.steps = true ∧
    parentOkList none (duplicateStep demoGoal "a" (fun _ => "dup") 7).steps = false := by
  constructor
  · simp [demoGoal, stepA, stepB]
  · simp [duplicateStep, findStep, findStepList, demoGoal, stepA, stepB,
      duplicateStepRecursive, duplicateChildren, findMaxOrder]

/-- C5 witness: delete and re-parent on the concrete goal `a → b` keep I3. -/
theorem claim5_witness :
    parentOkList none (deleteStep demoGoal "b" 4).steps = true ∧
    parentOkList none (moveStepToParent demoGoal "b" none 4).steps = true := by
  have hok : parentOkList none demoGoal.steps = true := by simp [demoGoal, stepA, stepB]
  have hnd : (allIdsList demoGoal.steps).Nodup := by
    have h : allIdsList demoGoal.steps = ["a", "b"] := by simp [demoGoal, stepA, stepB]
    rw [h]
    decide
  exact ⟨claim5_i3_preservation.2.2.1 demoGoal "b" 4 hok,
         claim5_i3_preservation.2.2.2.2.2 demoGoal "b" none 4 hnd hok⟩

/-! ## Lemmas about `duplicateStepRecursive` -/

theorem dupChildren_counter :
    ∀ (l : List Step) (ids : Nat → String) (n : Nat),
      (duplicateChildren ids l n).2 = n + stepCountList l := by
  apply forestRec
  · intro ids n
    simp [duplicateChildren, stepCountList]
  · intro i t d c p cs o rest ihc ihr ids n
    simp only [duplicateChildren, duplicateStepRecursive]
    rw [ihr, ihc]
    simp [stepCountList, stepCountStep]
    omega

theorem dupChildren_ids_subset :
    ∀ (l : List Step) (ids : Nat → String) (n : Nat),
      ∀ j ∈ allIdsList (duplicateChildren ids l n).1, ∃ k, n ≤ k ∧ j = ids k := by
  apply forestRec
  · intro ids n j hj
    simp [duplicateChildren] at hj
  · intro i t d c p cs o rest ihc ihr ids n j hj
    simp only [duplicateChildren, duplicateStepRecursive] at hj
    rw [allIdsList_cons] at hj
    rcases List.mem_cons.mp hj with hj | hj
    · exact ⟨n, le_rfl, hj⟩
    · rcases List.mem_append.mp hj with hj | hj
      · obtain ⟨k, hk, hjk⟩ := ihc ids (n + 1) j hj
        exact ⟨k, by omega, hjk⟩
      · obtain ⟨k, hk, hjk⟩ := ihr ids (duplicateChildren ids cs (n + 1)).2 j hj
        rw [dupChildren_counter] at hk
        exact ⟨k, by omega, hjk⟩

theorem dupStep_ids_subset (s : Step) (ids : Nat → String) (n : Nat) :
    ∀ j ∈ subtreeIds (duplicateStepRecursive ids s n).1, ∃ k, n ≤ k ∧ j = ids k := by
  cases s with
  | mk i t d c p cs o =>
    intro j hj
    simp only [duplicateStepRecursive, subtreeIds_mk] at hj
    rcases List.mem_cons.mp hj with hj | hj
    · exact ⟨n, le_rfl, hj⟩
    · obtain ⟨k, hk, hjk⟩ := dupChildren_ids_subset cs ids (n + 1) j hj
      exact ⟨k, by omega, hjk⟩

theorem projShapeList_dupChildren :
    ∀ (l : List Step) (ids : Nat → String) (n : Nat),
      projShapeList (duplicateChildren ids l n).1 = addCopyAllList (projShapeList l) := by
  apply forestRec
  · intro ids n
    simp [duplicateChildren, projShapeList, addCopyAllList]
  · intro i t d c p cs o rest ihc ihr ids n
    simp only [duplicateChildren, duplicateStepRecursive]
    simp [projShapeList, projShape, addCopyAllList, addCopyAll, ihc, ihr]

theorem projShape_dupStep (s : Step) (ids : Nat → String) (n : Nat) :
    projShape (duplicateStepRecursive ids s n).1 = addCopyAll (projShape s) := by
  cases s with
  | mk i t d c p cs o =>
    simp only [duplicateStepRecursive]
    simp [projShape, addCopyAll, projShapeList_dupChildren]

theorem dense_dupChildren :
    ∀ (l : List Step) (ids : Nat → String) (n : Nat),
      ((duplicateChildren ids l n).1.map Step.order = l.map Step.order) ∧
      (denseChildren (duplicateChildren ids l n).1 = denseChildren l) ∧
      (denseForest (duplicateChildren ids l n).1 = denseForest l) := by
  apply forestRec
  · intro ids n
    simp [duplicateChildren, denseForest]
  · intro i t d c p cs o rest ihc ihr ids n
    have horder : (duplicateChildren ids (Step.mk i t d c p cs o :: rest) n).1.map Step.order =
        (Step.mk i t d c p cs o :: rest).map Step.order := by
      simp only [duplicateChildren, duplicateStepRecursive]
      simp [(ihr ids _).1]
    have hchild : denseChildren (duplicateChildren ids (Step.mk i t d c p cs o :: rest) n).1 =
        denseChildren (Step.mk i t d c p cs o :: rest) := by
      simp only [duplicateChildren, duplicateStepRecursive]
      simp only [denseChildren, denseStep]
      rw [(ihc ids (n + 1)).2.2, (ihr ids _).2.1]
    refine ⟨horder, hchild, ?_⟩
    have hlen : (duplicateChildren ids (Step.mk i t d c p cs o :: rest) n).1.length =
        (Step.mk i t d c p cs o :: rest).length := by
      have := congrArg List.length horder
      simpa using this
    rw [denseForest, denseForest, horder, hlen, hchild]

/-! ## Maximum-order computations on dense sibling sets -/

theorem foldl_max_le_self : ∀ (l : List Int) (a : Int), a ≤ l.foldl max a := by
  intro l
  induction l with
  | nil => intro a; simp
  | cons x xs ih =>
    intro a
    simp only [List.foldl_cons]
    exact le_trans (le_max_left a x) (ih (max a x))

theorem foldl_max_le_of_mem : ∀ (l : List Int) (a : Int), ∀ x ∈ l, x ≤ l.foldl max a := by
  intro l
  induction l with
  | nil => simp
  | cons y ys ih =>
    intro a x hx
    rcases List.mem_cons.mp hx with hx | hx
    · subst hx
      simp only [List.foldl_cons]
      exact le_trans (le_max_right a x) (foldl_max_le_self ys (max a x))
    · simp only [List.foldl_cons]
      exact ih (max a y) x hx

theorem foldl_max_mem : ∀ (l : List Int) (a : Int), l.foldl max a = a ∨ l.foldl max a ∈ l := by
  intro l
  induction l with
  | nil => intro a; simp
  | cons y ys ih =>
    intro a
    simp only [List.foldl_cons]
    rcases ih (max a y) with h | h
    · rcases le_total a y with hay | hay
      · rw [max_eq_right hay] at h ⊢
        exact Or.inr (by simp [h])
      · rw [max_eq_left hay] at h ⊢
        exact Or.inl h
    · exact Or.inr (List.mem_cons_of_mem y h)

theorem mem_range_ofNat {x : Int} {N : Nat}
    (h : x ∈ (List.range N).map Int.ofNat) : 0 ≤ x ∧ x ≤ (N : Int) - 1 := by
  simp only [List.mem_map, List.mem_range] at h
  obtain ⟨k, hk, rfl⟩ := h
  simp only [Int.ofNat_eq_natCast]
  omega

theorem dense_foldl_max (os : List Int) (N : Nat)
    (hperm : List.Perm os ((List.range N).map Int.ofNat)) (hne : os ≠ []) :
    os.foldl max 0 = (N : Int) - 1 := by
  have hN : 0 < N := by
    have hlen := hperm.length_eq
    simp at hlen
    cases os with
    | nil => exact absurd rfl hne
    | cons a as => simp at hlen; omega
  have hmem : ((N : Int) - 1) ∈ os := by
    apply hperm.symm.subset
    simp only [List.mem_map, List.mem_range]
    exact ⟨N - 1, by omega, by simp only [Int.ofNat_eq_natCast]; omega⟩
  apply le_antisymm
  · rcases foldl_max_mem os 0 with h | h
    · rw [h]; omega
    · exact (mem_range_ofNat (hperm.subset h)).2
  · exact foldl_max_le_of_mem os 0 _ hmem

theorem dense_jsMax (o : Int) (os' : List Int) (N : Nat)
    (hperm : List.Perm (o :: os') ((List.range N).map Int.ofNat)) :
    jsMaxOf o os' = (N : Int) - 1 := by
  have hmem : ((N : Int) - 1) ∈ o :: os' := by
    apply hperm.symm.subset
    have hN : 0 < N := by
      have hlen := hperm.length_eq
      simp at hlen
      omega
    simp only [List.mem_map, List.mem_range]
    exact ⟨N - 1, by omega, by simp only [Int.ofNat_eq_natCast]; omega⟩
  apply le_antisymm
  · rcases foldl_max_mem os' o with h | h
    · rw [jsMaxOf, h]
      exact (mem_range_ofNat (hperm.subset (List.mem_cons_self o os'))).2
    · exact (mem_range_ofNat (hperm.subset (List.mem_cons_of_mem o h))).2
  · rcases List.mem_cons.mp hmem with h | h
    · rw [h]
      exact foldl_max_le_self os' o
    · exact foldl_max_le_of_mem os' o _ h

/-! ## Dense-forest helpers -/

theorem denseChildren_iff_forall :
    ∀ l : List Step, denseChildren l = true ↔ ∀ s ∈ l, denseStep s = true := by
  intro l
  induction l with
  | nil => simp [denseChildren]
  | cons s rest ih =>
    rw [denseChildren]
    simp [ih]

theorem denseChildren_append (l1 l2 : List Step) :
    denseChildren (l1 ++ l2) = (denseChildren l1 && denseChildren l2) := by
  induction l1 with
  | nil => simp [denseChildren]
  | cons s rest ih =>
    rw [List.cons_append, denseChildren, denseChildren, ih, Bool.and_assoc]

theorem denseStep_withOrder (s : Step) (k : Int) : denseStep (s.withOrder k) = denseStep s := by
  cases s with
  | mk i t d c p cs o => simp [denseStep]

theorem denseChildren_renumber :
    ∀ (l : List Step) (n : Int), denseChildren (renumberSteps n l) = denseChildren l := by
  intro l
  induction l with
  | nil => intro n; simp [renumberSteps]
  | cons s rest ih =>
    intro n
    cases s with
    | mk i t d c p cs o =>
      rw [renumberSteps, denseChildren, denseChildren, ih]
      simp [denseStep]

theorem renumberSteps_map_order :
    ∀ (l : List Step) (n : Int), (renumberSteps n l).map Step.order =
      (List.range l.length).map (fun k => n + Int.ofNat k) := by
  intro l
  induction l with
  | nil => intro n; simp [renumberSteps]
  | cons s rest ih =>
    intro n
    cases s with
    | mk i t d c p cs o =>
      simp only [renumberSteps, List.map_cons, ih (n + 1), List.length_cons,
        List.range_succ_eq_map, List.map_map]
      congr 1
      · simp
      · apply List.map_congr_left
        intro k _
        simp [Function.comp]
        omega

theorem renumberSteps_length (l : List Step) (n : Int) :
    (renumberSteps n l).length = l.length := by
  have := congrArg List.length (renumberSteps_map_order l n)
  simpa using this

theorem dense_children_of_find :
    ∀ (l : List Step) (sid : String), denseChildren l = true → ∀ X,
      findStepList l sid = some X → denseForest X.children = true := by
  intro l sid
  induction l, sid using findStepList.induct with
  | case1 sid =>
    intro _ X hX
    simp [findStepList] at hX
  | case2 i t d c p cs o rest sid heq =>
    intro hd X hX
    rw [findStepList, if_pos heq] at hX
    have hXv : X = Step.mk i t d c p cs o := by cases hX; rfl
    subst hXv
    rw [denseChildren] at hd
    simp at hd
    simpa [denseStep] using hd.1
  | case3 i t d c p cs o rest sid hne f hf ihc =>
    intro hd X hX
    rw [findStepList, if_neg hne, hf] at hX
    have hXf : X = f := by cases hX; rfl
    subst hXf
    rw [denseChildren] at hd
    simp at hd
    have hcs : denseChildren cs = true := by
      have := hd.1
      rw [denseStep, denseForest] at this
      simp at this
      exact this.2
    exact ihc hcs X hf
  | case4 i t d c p cs o rest sid hne hnone ihc ihr =>
    intro hd X hX
    rw [findStepList, if_neg hne, hnone] at hX
    rw [denseChildren] at hd
    simp at hd
    exact ihr hd.2 X hX

/-- `parentOkList e l` forces every root of `l` to carry `parentId = e`,
so the `parentId` filters in the max-order computations keep everything. -/
theorem filter_parentId_eq_self (e : Option String) :
    ∀ l : List Step, parentOkList e l = true →
      l.filter (fun s => s.parentId == e) = l := by
  intro l hok
  rw [parentOkList_iff_forall] at hok
  apply List.filter_eq_self.mpr
  intro s hs
  have := hok s hs
  cases s with
  | mk i t d c p cs o =>
    simp at this ⊢
    exact this.1

theorem addStepRec_map_order (pid : String) (st : Step) :
    ∀ l : List Step, (addStepRecursive pid st l).map Step.order = l.map Step.order := by
  intro l
  induction l with
  | nil => simp [addStepRecursive]
  | cons s rest ih =>
    cases s with
    | mk i t d c p cs o =>
      by_cases hi : i == pid
      · simp [addStepRecursive, hi, ih]
      · by_cases hl : cs.length > 0
        · simp [addStepRecursive, hi, hl, ih]
        · simp [addStepRecursive, hi, hl, ih]

theorem addDup_map_order (pid : String) (dup : Step) :
    ∀ l : List Step,
      (addDuplicatedStepToParent pid dup l).map Step.order = l.map Step.order := by
  intro l
  induction l with
  | nil => simp [addDuplicatedStepToParent]
  | cons s rest ih =>
    cases s with
    | mk i t d c p cs o =>
      by_cases hi : i == pid
      · simp [addDuplicatedStepToParent, hi, ih]
      · by_cases hl : cs.length > 0
        · simp [addDuplicatedStepToParent, hi, hl, ih]
        · simp [addDuplicatedStepToParent, hi, hl, ih]

theorem reorderWithParent_map_order (sid : String) (n : Nat) (pid : String) :
    ∀ l : List Step,
      (reorderWithParent sid n pid l).map Step.order = l.map Step.order := by
  intro l
  induction l with
  | nil => simp [reorderWithParent]
  | cons s rest ih =>
    cases s with
    | mk i t d c p cs o =>
      by_cases hi : i == pid
      · cases hidx : cs.findIdx? (fun s => s.id == sid) with
        | none => simp [reorderWithParent, hi, hidx, ih]
        | some si =>
          cases hget : cs[si]? with
          | none => simp [reorderWithParent, hi, hidx, hget, ih]
          | some moved => simp [reorderWithParent, hi, hidx, hget, ih]
      · by_cases hl : cs.length > 0
        · simp [reorderWithParent, hi, hl, ih]
        · simp [reorderWithParent, hi, hl, ih]

theorem addDuplicatedStepToParent_of_not_mem (pid : String) (dup : Step) :
    ∀ l : List Step, pid ∉ allIdsList l → addDuplicatedStepToParent pid dup l = l := by
  apply forestRec
  · intro _
    simp [addDuplicatedStepToParent]
  · intro i t d c p cs o rest ihc ihr hmem
    simp at hmem
    obtain ⟨hi, hcs, hrest⟩ := hmem
    have hne : ¬ i == pid := by simp; exact fun h => hi h.symm
    by_cases hl : cs.length > 0
    · simp [addDuplicatedStepToParent, hne, hl, ihc hcs, ihr hrest]
    · simp [addDuplicatedStepToParent, hne, hl, ihr hrest]

/-! ## Density preservation: reorder -/

/-- After the splice the whole sibling set is renumbered `0..N-1`, so the
level is dense regardless of the splice position; the elements' subtrees
must be dense to begin with. -/
theorem dense_spliceRenumber (L : List Step) (hL : ∀ s ∈ L, denseStep s = true) :
    denseForest (renumberSteps 0 L) = true := by
  rw [denseForest]
  simp only [Bool.and_eq_true]
  constructor
  · rw [renumberSteps_map_order, renumberSteps_length]
    rw [List.isPerm_iff]
    have : (List.range L.length).map (fun k => (0 : Int) + Int.ofNat k) =
        (List.range L.length).map Int.ofNat := by
      apply List.map_congr_left
      intro k _
      simp
    rw [this]
  · rw [denseChildren_renumber]
    rw [denseChildren_iff_forall]
    exact hL

theorem dense_reorderRoot (sid : String) (n : Nat) (l : List Step)
    (hd : denseForest l = true) :
    denseForest (reorderRootLevel sid n l) = true := by
  cases hidx : l.findIdx? (fun s => s.id == sid) with
  | none =>
    simp only [reorderRootLevel, hidx]
    exact hd
  | some si =>
    cases hget : l[si]? with
    | none =>
      simp only [reorderRootLevel, hidx, hget]
      exact hd
    | some moved =>
      simp only [reorderRootLevel, hidx, hget]
      apply dense_spliceRenumber
      rw [denseForest] at hd
      simp only [Bool.and_eq_true] at hd
      have hall := (denseChildren_iff_forall l).mp hd.2
      intro s hs
      rcases mem_of_mem_spliceInsert hs with hs | hs
      · subst hs
        exact hall s (mem_of_getElem?_some hget)
      · exact hall s ((List.eraseIdx_sublist l si).subset hs)

theorem denseChildren_reorderWithParent (sid : String) (n : Nat) (pid : String) :
    ∀ l : List Step, denseChildren l = true →
      denseChildren (reorderWithParent sid n pid l) = true := by
  apply forestRec
  · intro _
    simp [reorderWithParent, denseChildren]
  · intro i t d c p cs o rest ihc ihr hd
    rw [denseChildren] at hd
    simp only [Bool.and_eq_true] at hd
    obtain ⟨hhead, hrest⟩ := hd
    have hcs : denseForest cs = true := by
      rw [denseStep] at hhead
      exact hhead
    by_cases hi : i == pid
    · cases hidx : cs.findIdx? (fun s => s.id == sid) with
      | none =>
        simp only [reorderWithParent, if_pos hi, hidx, denseChildren]
        simp [denseStep, hcs, ihr hrest]
      | some si =>
        cases hget : cs[si]? with
        | none =>
          simp only [reorderWithParent, if_pos hi, hidx, hget, denseChildren]
          simp [denseStep, hcs, ihr hrest]
        | some moved =>
          simp only [reorderWithParent, if_pos hi, hidx, hget, denseChildren]
          simp only [Bool.and_eq_true]
          refine ⟨?_, ihr hrest⟩
          rw [denseStep]
          apply dense_spliceRenumber
          rw [denseForest] at hcs
          simp only [Bool.and_eq_true] at hcs
          have hall := (denseChildren_iff_forall cs).mp hcs.2
          intro s hs
          rcases mem_of_mem_spliceInsert hs with hs | hs
          · subst hs
            exact hall s (mem_of_getElem?_some hget)
          · exact hall s ((List.eraseIdx_sublist cs si).subset hs)
    · by_cases hl : cs.length > 0
      · simp only [reorderWithParent, if_neg hi, if_pos hl, denseChildren]
        simp only [Bool.and_eq_true]
        refine ⟨?_, ihr hrest⟩
        rw [denseStep, denseForest]
        simp only [Bool.and_eq_true]
        have hmap := reorderWithParent_map_order sid n pid cs
        have hlen : (reorderWithParent sid n pid cs).length = cs.length := by
          have := congrArg List.length hmap
          simpa using this
        rw [denseForest] at hcs
        simp only [Bool.and_eq_true] at hcs
        constructor
        · rw [hmap, hlen]
          exact hcs.1
        · exact ihc hcs.2
      · simp only [reorderWithParent, if_neg hi, if_neg hl, denseChildren]
        simp [denseStep, hcs, ihr hrest]

theorem dense_reorderWithParent (sid : String) (n : Nat) (pid : String) (l : List Step)
    (hd : denseForest l = true) :
    denseForest (reorderWithParent sid n pid l) = true := by
  rw [denseForest] at hd ⊢
  simp only [Bool.and_eq_true] at hd ⊢
  have hmap := reorderWithParent_map_order sid n pid l
  have hlen : (reorderWithParent sid n pid l).length = l.length := by
    have := congrArg List.length hmap
    simpa using this
  exact ⟨by rw [hmap, hlen]; exact hd.1, denseChildren_reorderWithParent sid n pid l hd.2⟩

/-! ## Density preservation: insert (facade) -/

theorem denseStep_leaf (st : Step) (hst : st.children = []) : denseStep st = true := by
  cases st with
  | mk i t d c p cs o =>
    simp at hst
    subst hst
    rw [denseStep, denseForest]
    simp [denseChildren, List.isPerm]

theorem dense_append_leaf (l : List Step) (st : Step) (hst : st.children = [])
    (hord : st.order = Int.ofNat l.length) (hd : denseForest l = true) :
    denseForest (l ++ [st]) = true := by
  rw [denseForest] at hd ⊢
  simp only [Bool.and_eq_true] at hd ⊢
  constructor
  · rw [List.isPerm_iff] at hd ⊢
    rw [List.map_append, List.length_append]
    simp only [List.map_cons, List.map_nil, List.length_cons, List.length_nil]
    rw [List.range_succ, List.map_append]
    simp only [List.map_cons, List.map_nil]
    rw [hord]
    exact hd.1.append_right _
  · rw [denseChildren_append]
    simp [hd.2, denseChildren, denseStep_leaf st hst]

theorem denseChildren_addStepRec (pid : String) (st : Step) (hst : st.children = []) :
    ∀ l : List Step, (allIdsList l).Nodup → denseChildren l = true →
      ∀ P, findStepList l pid = some P → st.order = Int.ofNat P.children.length →
      denseChildren (addStepRecursive pid st l) = true := by
  apply forestRec
  · intro _ _ P hP
    simp [findStepList] at hP
  · intro i t d c p cs o rest ihc ihr hnd hd P hP hord
    obtain ⟨hic, hir, hndc, hndr, hdisj⟩ := nodup_forest_cons hnd
    rw [denseChildren] at hd
    simp only [Bool.and_eq_true] at hd
    obtain ⟨hhead, hrest⟩ := hd
    have hcs : denseForest cs = true := by rw [denseStep] at hhead; exact hhead
    by_cases hi : i == pid
    · have hie : i = pid := by simpa using hi
      rw [findStepList, if_pos hi] at hP
      have hPv : P = Step.mk i t d c p cs o := by cases hP; rfl
      subst hPv
      have hpidr : pid ∉ allIdsList rest := hie ▸ hir
      have hrid : addStepRecursive pid st rest = rest :=
        addStepRecursive_of_not_mem pid st rest hpidr
      simp only [addStepRecursive, if_pos hi, hrid, denseChildren]
      simp only [Bool.and_eq_true]
      refine ⟨?_, hrest⟩
      rw [denseStep]
      apply dense_append_leaf cs st hst (by simpa using hord) hcs
    · rw [findStepList, if_neg hi] at hP
      cases hcs2 : findStepList cs pid with
      | some Q =>
        rw [hcs2] at hP
        have hPQ : P = Q := by cases hP; rfl
        subst hPQ
        have hpidc : pid ∈ allIdsList cs := mem_allIds_of_find hcs2
        have hpidr : pid ∉ allIdsList rest := hdisj _ hpidc
        have hrid : addStepRecursive pid st rest = rest :=
          addStepRecursive_of_not_mem pid st rest hpidr
        have hlen : cs.length > 0 := by
          cases cs with
          | nil => simp at hpidc
          | cons a as => simp
        simp only [addStepRecursive, if_neg hi, if_pos hlen, hrid, denseChildren]
        simp only [Bool.and_eq_true]
        refine ⟨?_, hrest⟩
        rw [denseStep, denseForest]
        simp only [Bool.and_eq_true]
        have hmap := addStepRec_map_order pid st cs
        have hlen2 : (addStepRecursive pid st cs).length = cs.length := by
          have := congrArg List.length hmap
          simpa using this
        rw [denseForest] at hcs
        simp only [Bool.and_eq_true] at hcs
        exact ⟨by rw [hmap, hlen2]; exact hcs.1, ihc hndc hcs.2 P hcs2 hord⟩
      | none =>
        rw [hcs2] at hP
        have hpidc : pid ∉ allIdsList cs := (findStepList_eq_none_iff cs pid).mp hcs2
        have hcid : addStepRecursive pid st cs = cs :=
          addStepRecursive_of_not_mem pid st cs hpidc
        have hhead2 : (if i == pid then Step.mk i t d c p (cs ++ [st]) o
            else if cs.length > 0 then Step.mk i t d c p (addStepRecursive pid st cs) o
            else Step.mk i t d c p cs o) = Step.mk i t d c p cs o := by
          rw [if_neg hi]
          by_cases hl : cs.length > 0
          · rw [if_pos hl, hcid]
          · rw [if_neg hl]
        simp only [addStepRecursive, hhead2, denseChildren]
        simp only [Bool.and_eq_true]
        exact ⟨hhead, ihr hndr hrest P hP hord⟩

theorem dense_addStepFacade (goal : Goal) (newId ttl : String) (dsc : Option String)
    (pidOpt : Option String) (now : Int)
    (hnd : (allIdsList goal.steps).Nodup) (hd : denseForest goal.steps = true) :
    denseForest (addStepFacade goal newId ttl dsc pidOpt now).steps = true := by
  cases pidOpt with
  | none =>
    cases hsteps : goal.steps.map Step.order with
    | nil =>
      have hempty : goal.steps = [] := List.map_eq_nil_iff.mp hsteps
      simp only [addStepFacade, hsteps, addStep, hempty]
      have h0 : denseForest ([] : List Step) = true := by
        rw [denseForest]
        simp [denseChildren, List.isPerm]
      have happ := dense_append_leaf [] (.mk newId ttl dsc false none [] (-1 + 1))
        (by simp) (by simp) h0
      simpa using happ
    | cons o os =>
      simp only [addStepFacade, hsteps, addStep]
      have hperm : List.Perm (o :: os) ((List.range goal.steps.length).map Int.ofNat) := by
        rw [denseForest] at hd
        simp only [Bool.and_eq_true] at hd
        have := hd.1
        rw [hsteps] at this
        exact List.isPerm_iff.mp this
      have hmax : jsMaxOf o os = (goal.steps.length : Int) - 1 :=
        dense_jsMax o os goal.steps.length hperm
      apply dense_append_leaf goal.steps _ (by simp) ?_ hd
      simp only [Step.order_mk, hmax, Int.ofNat_eq_natCast]
      ring
  | some pid =>
    cases hfind : findStepList goal.steps pid with
    | none =>
      simp only [addStepFacade, hfind, addStep]
      rw [addStepRecursive_of_not_mem pid _ goal.steps
        ((findStepList_eq_none_iff _ _).mp hfind)]
      exact hd
    | some P =>
      have hdc : denseChildren goal.steps = true := by
        rw [denseForest] at hd
        simp only [Bool.and_eq_true] at hd
        exact hd.2
      by_cases hlenP : P.children.length > 0
      · cases hcs : P.children.map Step.order with
        | nil =>
          exfalso
          cases hc : P.children with
          | nil => rw [hc] at hlenP; simp at hlenP
          | cons a as => rw [hc] at hcs; simp at hcs
        | cons o os =>
          simp only [addStepFacade, hfind, if_pos hlenP, hcs, addStep]
          have hPd : denseForest P.children = true :=
            dense_children_of_find goal.steps pid hdc P hfind
          have hperm : List.Perm (o :: os) ((List.range P.children.length).map Int.ofNat) := by
            rw [denseForest] at hPd
            simp only [Bool.and_eq_true] at hPd
            have := hPd.1
            rw [hcs] at this
            exact List.isPerm_iff.mp this
          have hmax : jsMaxOf o os = (P.children.length : Int) - 1 :=
            dense_jsMax o os P.children.length hperm
          rw [denseForest]
          simp only [Bool.and_eq_true]
          have hmap := addStepRec_map_order pid (.mk newId ttl dsc false (some pid) []
            (jsMaxOf o os + 1)) goal.steps
          have hlen2 : (addStepRecursive pid (.mk newId ttl dsc false (some pid) []
              (jsMaxOf o os + 1)) goal.steps).length = goal.steps.length := by
            have := congrArg List.length hmap
            simpa using this
          constructor
          · rw [hmap, hlen2]
            rw [denseForest] at hd
            simp only [Bool.and_eq_true] at hd
            exact hd.1
          · apply denseChildren_addStepRec pid _ (by simp) goal.steps hnd hdc P hfind
            simp only [Step.order_mk, hmax, Int.ofNat_eq_natCast]
            ring
      · have hc : P.children = [] := by
          cases hc : P.children with
          | nil => rfl
          | cons a as => rw [hc] at hlenP; simp at hlenP
        simp only [addStepFacade, hfind, if_neg hlenP, addStep]
        rw [denseForest]
        simp only [Bool.and_eq_true]
        have hmap := addStepRec_map_order pid (.mk newId ttl dsc false (some pid) []
          (-1 + 1)) goal.steps
        have hlen2 : (addStepRecursive pid (.mk newId ttl dsc false (some pid) []
            (-1 + 1)) goal.steps).length = goal.steps.length := by
          have := congrArg List.length hmap
          simpa using this
        constructor
        · rw [hmap, hlen2]
          rw [denseForest] at hd
          simp only [Bool.and_eq_true] at hd
          exact hd.1
        · apply denseChildren_addStepRec pid _ (by simp) goal.steps hnd hdc P hfind
          simp [hc]

/-! ## Density preservation: duplicate -/

@[simp] theorem Step.order_withOrder (s : Step) (k : Int) : (s.withOrder k).order = k := by
  cases s with
  | mk i t d c p cs o => simp

theorem dense_append_step (l : List Step) (st : Step) (hst : denseStep st = true)
    (hord : st.order = Int.ofNat l.length) (hd : denseForest l = true) :
    denseForest (l ++ [st]) = true := by
  rw [denseForest] at hd ⊢
  simp only [Bool.and_eq_true] at hd ⊢
  constructor
  · rw [List.isPerm_iff] at hd ⊢
    rw [List.map_append, List.length_append]
    simp only [List.map_cons, List.map_nil, List.length_cons, List.length_nil]
    rw [List.range_succ, List.map_append]
    simp only [List.map_cons, List.map_nil]
    rw [hord]
    exact hd.1.append_right _
  · rw [denseChildren_append]
    simp [hd.2, denseChildren, hst]

/-- Where a found node sits: either it is a root carrying the expected
`parentId`, or it is a child of some node `P` of the forest and carries
`parentId = P.id` (invariant I3 read off along the search path). -/
theorem parent_structure_of_find :
    ∀ (l : List Step) (sid : String), ∀ X, findStepList l sid = some X →
      ∀ e, parentOkList e l = true →
        (X.parentId = e ∧ X ∈ l) ∨
        ∃ P ∈ nodesList l, X ∈ P.children ∧ X.parentId = some P.id := by
  intro l sid
  induction l, sid using findStepList.induct with
  | case1 sid =>
    intro X hX
    simp [findStepList] at hX
  | case2 i t d c p cs o rest sid heq =>
    intro X hX e hok
    rw [findStepList, if_pos heq] at hX
    have hXv : X = Step.mk i t d c p cs o := by cases hX; rfl
    subst hXv
    simp at hok
    exact Or.inl ⟨by simp [hok.1.1], List.mem_cons_self _ _⟩
  | case3 i t d c p cs o rest sid hne f hf ihc =>
    intro X hX e hok
    rw [findStepList, if_neg hne, hf] at hX
    have hXf : X = f := by cases hX; rfl
    subst hXf
    simp at hok
    rcases ihc X hf (some i) hok.1.2 with ⟨hp, hmem⟩ | ⟨P, hP, hmem, hp⟩
    · exact Or.inr ⟨Step.mk i t d c p cs o, by simp, by simpa using hmem, by simpa using hp⟩
    · exact Or.inr ⟨P, by simp [hP], hmem, hp⟩
  | case4 i t d c p cs o rest sid hne hnone ihc ihr =>
    intro X hX e hok
    rw [findStepList, if_neg hne, hnone] at hX
    simp at hok
    rcases ihr X hX e hok.2 with ⟨hp, hmem⟩ | ⟨P, hP, hmem, hp⟩
    · exact Or.inl ⟨hp, List.mem_cons_of_mem _ hmem⟩
    · exact Or.inr ⟨P, by simp [hP], hmem, hp⟩

theorem denseChildren_addDup (pid : String) (D : Step) (hD : denseStep D = true) :
    ∀ l : List Step, (allIdsList l).Nodup → ∀ e, parentOkList e l = true →
      denseChildren l = true →
      ∀ P, findStepList l pid = some P → P.children ≠ [] →
      denseChildren (addDuplicatedStepToParent pid D l) = true := by
  apply forestRec
  · intro _ e _ _ P hP
    simp [findStepList] at hP
  · intro i t d c p cs o rest ihc ihr hnd e hok hd P hP hne2
    obtain ⟨hic, hir, hndc, hndr, hdisj⟩ := nodup_forest_cons hnd
    simp at hok
    obtain ⟨⟨hpe, hpcs⟩, hokrest⟩ := hok
    rw [denseChildren] at hd
    simp only [Bool.and_eq_true] at hd
    obtain ⟨hhead, hrest⟩ := hd
    have hcs : denseForest cs = true := by rw [denseStep] at hhead; exact hhead
    by_cases hi : i == pid
    · have hie : i = pid := by simpa using hi
      rw [findStepList, if_pos hi] at hP
      have hPv : P = Step.mk i t d c p cs o := by cases hP; rfl
      subst hPv
      have hcsne : cs ≠ [] := by simpa using hne2
      have hpidr : pid ∉ allIdsList rest := hie ▸ hir
      have hrid : addDuplicatedStepToParent pid D rest = rest :=
        addDuplicatedStepToParent_of_not_mem pid D rest hpidr
      simp only [addDuplicatedStepToParent, if_pos hi, hrid, denseChildren]
      simp only [Bool.and_eq_true]
      refine ⟨?_, hrest⟩
      rw [denseStep]
      have hfilter : cs.filter (fun s => s.parentId == some i) = cs := by
        have hb : parentOkList (some i) cs = true := hpcs
        exact filter_parentId_eq_self (some i) cs hb
      have hperm : List.Perm (cs.map Step.order) ((List.range cs.length).map Int.ofNat) := by
        rw [denseForest] at hcs
        simp only [Bool.and_eq_true] at hcs
        exact List.isPerm_iff.mp hcs.1
      have hmax : findMaxOrder cs (some i) = (cs.length : Int) - 1 := by
        rw [findMaxOrder, hfilter]
        apply dense_foldl_max _ cs.length hperm
        simp [hcsne]
      apply dense_append_step cs _ (by rw [denseStep_withOrder]; exact hD) ?_ hcs
      simp only [Step.order_withOrder, hmax, Int.ofNat_eq_natCast]
      ring
    · rw [findStepList, if_neg hi] at hP
      cases hcs2 : findStepList cs pid with
      | some Q =>
        rw [hcs2] at hP
        have hPQ : P = Q := by cases hP; rfl
        subst hPQ
        have hpidc : pid ∈ allIdsList cs := mem_allIds_of_find hcs2
        have hpidr : pid ∉ allIdsList rest := hdisj _ hpidc
        have hrid : addDuplicatedStepToParent pid D rest = rest :=
          addDuplicatedStepToParent_of_not_mem pid D rest hpidr
        have hlen : cs.length > 0 := by
          cases cs with
          | nil => simp at hpidc
          | cons a as => simp
        simp only [addDuplicatedStepToParent, if_neg hi, if_pos hlen, hrid, denseChildren]
        simp only [Bool.and_eq_true]
        refine ⟨?_, hrest⟩
        rw [denseStep, denseForest]
        simp only [Bool.and_eq_true]
        have hmap := addDup_map_order pid D cs
        have hlen2 : (addDuplicatedStepToParent pid D cs).length = cs.length := by
          have := congrArg List.length hmap
          simpa using this
        rw [denseForest] at hcs
        simp only [Bool.and_eq_true] at hcs
        exact ⟨by rw [hmap, hlen2]; exact hcs.1,
          ihc hndc (some i) hpcs hcs.2 P hcs2 hne2⟩
      | none =>
        rw [hcs2] at hP
        have hpidc : pid ∉ allIdsList cs := (findStepList_eq_none_iff cs pid).mp hcs2
        have hcid : addDuplicatedStepToParent pid D cs = cs :=
          addDuplicatedStepToParent_of_not_mem pid D cs hpidc
        have hhead2 : (if i == pid then
              Step.mk i t d c p (cs ++ [D.withOrder (findMaxOrder cs (some i) + 1)]) o
            else if cs.length > 0 then
              Step.mk i t d c p (addDuplicatedStepToParent pid D cs) o
            else Step.mk i t d c p cs o) = Step.mk i t d c p cs o := by
          rw [if_neg hi]
          by_cases hl : cs.length > 0
          · rw [if_pos hl, hcid]
          · rw [if_neg hl]
        simp only [addDuplicatedStepToParent, hhead2, denseChildren]
        simp only [Bool.and_eq_true]
        exact ⟨hhead, ihr hndr e hokrest hrest P hP hne2⟩

theorem dense_duplicateStep (goal : Goal) (sid : String) (ids : Nat → String) (now : Int)
    (hnd : (allIdsList goal.steps).Nodup) (hok : parentOkList none goal.steps = true)
    (hd : denseForest goal.steps = true) :
    denseForest (duplicateStep goal sid ids now).steps = true := by
  cases hfind : findStep goal sid with
  | none =>
    simp only [duplicateStep, hfind]
    exact hd
  | some X =>
    have hdc : denseChildren goal.steps = true := by
      rw [denseForest] at hd
      simp only [Bool.and_eq_true] at hd
      exact hd.2
    have hXd : denseForest X.children = true :=
      dense_children_of_find goal.steps sid hdc X hfind
    have hDd : denseStep (duplicateStepRecursive ids X 0).1 = true := by
      cases X with
      | mk xi xt xd xc xp xcs xo =>
        simp only [duplicateStepRecursive]
        rw [denseStep]
        rw [(dense_dupChildren xcs ids 1).2.2]
        simpa using hXd
    cases hpid : X.parentId with
    | none =>
      simp only [duplicateStep, hfind, hpid]
      have hne : goal.steps ≠ [] := by
        intro h
        rw [findStep, h] at hfind
        simp [findStepList] at hfind
      have hperm : List.Perm (goal.steps.map Step.order)
          ((List.range goal.steps.length).map Int.ofNat) := by
        rw [denseForest] at hd
        simp only [Bool.and_eq_true] at hd
        exact List.isPerm_iff.mp hd.1
      have hmax : findMaxOrder goal.steps none = (goal.steps.length : Int) - 1 := by
        rw [findMaxOrder, filter_parentId_eq_self none goal.steps hok]
        apply dense_foldl_max _ goal.steps.length hperm
        simp [hne]
      apply dense_append_step _ _ (by rw [denseStep_withOrder]; exact hDd) ?_ hd
      simp only [Step.order_withOrder, hmax, Int.ofNat_eq_natCast]
      ring
    | some pid =>
      rcases parent_structure_of_find goal.steps sid X hfind none hok with
        ⟨hp, _⟩ | ⟨P, hPmem, hXmem, hp⟩
      · rw [hpid] at hp
        cases hp
      · rw [hpid] at hp
        have hpid2 : P.id = pid := by
          injection hp with h
          exact h.symm
        have hfindP : findStepList goal.steps pid = some P := by
          rw [← hpid2]
          exact find_of_mem_nodes goal.steps hnd P hPmem
        have hne2 : P.children ≠ [] := by
          intro h
          rw [h] at hXmem
          cases hXmem
        simp only [duplicateStep, hfind, hpid]
        rw [denseForest]
        simp only [Bool.and_eq_true]
        have hmap := addDup_map_order pid (duplicateStepRecursive ids X 0).1 goal.steps
        have hlen2 : (addDuplicatedStepToParent pid (duplicateStepRecursive ids X 0).1
            goal.steps).length = goal.steps.length := by
          have := congrArg List.length hmap
          simpa using this
        constructor
        · rw [hmap, hlen2]
          rw [denseForest] at hd
          simp only [Bool.and_eq_true] at hd
          exact hd.1
        · exact denseChildren_addDup pid _ hDd goal.steps hnd none hok hdc P hfindP hne2

/-! ## C2: order density -/


/-- C2, counterexample: `moveStepToParent` does not restore order density.
On the dense, parent-consistent goal with roots `p(order 0), q(order 1)`,
moving `p` under `q` leaves the root sibling set `[q]` with order values
`[1]` instead of `[0]` — a gap, so the claim fails for MoveToParent. -/
theorem claim2_counterexample :
    denseForest moveDemo.steps = true ∧
    (allIdsList moveDemo.steps).Nodup ∧
    parentOkList none moveDemo.steps = true ∧
    denseForest (moveStepToParent moveDemo "p" (some "q") 11).steps = false := by
  refine ⟨?_, ?_, ?_, ?_⟩
  · simp [moveDemo, stepP, stepQ, denseForest, denseChildren, denseStep, List.isPerm]
    decide
  · simp [moveDemo, stepP, stepQ]
  · simp [moveDemo, stepP, stepQ]
  · simp [moveStepToParent, findStep, findStepList, moveDemo, stepP, stepQ,
      isDescendantFuel, stepCountList, stepCountStep, removeStepFromParent,
      removeStepChildrenMap, addStepToNewParent, getMaxOrder, denseForest,
      denseChildren, denseStep, List.isPerm]

/-- C2 (amended): on goals satisfying the data-model invariants (unique
ids, parent consistency, density), Insert (whose facade computes
`order = max+1`), ReorderSiblings (which renumbers the affected set
`0..N-1`), and DuplicateSubtree (which appends the copy with `order =
max+1`) leave every sibling set dense `0..N-1`.  MoveToParent does NOT:
it never renumbers the source sibling set, leaving a gap (see the
counterexample). -/
theorem claim2_density_insert_reorder_duplicate :
    (∀ (goal : Goal) (newId ttl : String) (dsc : Option String) (pidOpt : Option String)
        (now : Int), (allIdsList goal.steps).Nodup → denseForest goal.steps = true →
        denseForest (addStepFacade goal newId ttl dsc pidOpt now).steps = true) ∧
    (∀ (goal : Goal) (sid : String) (n : Nat) (pidOpt : Option String) (now : Int),
        denseForest goal.steps = true →
        denseForest (reorderStep goal sid n pidOpt now).steps = true) ∧
    (∀ (goal : Goal) (sid : String) (ids : Nat → String) (now : Int),
        (allIdsList goal.steps).Nodup → parentOkList none goal.steps = true →
        denseForest goal.steps = true →
        denseForest (duplicateStep goal sid ids now).steps = true) := by
  refine ⟨?_, ?_, ?_⟩
  · intro goal newId ttl dsc pidOpt now hnd hd
    exact dense_addStepFacade goal newId ttl dsc pidOpt now hnd hd
  · intro goal sid n pidOpt now hd
    cases pidOpt with
    | none =>
      simp only [reorderStep]
      exact dense_reorderRoot sid n goal.steps hd
    | some pid =>
      simp only [reorderStep]
      exact dense_reorderWithParent sid n pid goal.steps hd
  · intro goal sid ids now hnd hok hd
    exact dense_duplicateStep goal sid ids now hnd hok hd

/-- C2 witness: inserting a new root step, reordering a root step, and
duplicating the nested step `b` in the dense goal `a → b` all keep every
sibling set dense. -/
theorem claim2_witness :
    denseForest (addStepFacade demoGoal "c" "C" none none 5).steps = true ∧
    denseForest (reorderStep demoGoal "a" 0 none 5).steps = true ∧
    denseForest (duplicateStep demoGoal "b" (fun _ => "dup") 5).steps = true := by
  have hnd : (allIdsList demoGoal.steps).Nodup := by
    have h : allIdsList demoGoal.steps = ["a", "b"] := by simp [demoGoal, stepA, stepB]
    rw [h]
    decide
  have hok : parentOkList none demoGoal.steps = true := by simp [demoGoal, stepA, stepB]
  have hd : denseForest demoGoal.steps = true := by
    simp [demoGoal, stepA, stepB, denseForest, denseChildren, denseStep, List.isPerm]
    decide
  exact ⟨claim2_density_insert_reorder_duplicate.1 demoGoal "c" "C" none none 5 hnd hd,
         claim2_density_insert_reorder_duplicate.2.1 demoGoal "a" 0 none 5 hd,
         claim2_density_insert_reorder_duplicate.2.2 demoGoal "b" (fun _ => "dup") 5 hnd hok hd⟩

/-! ## C4: duplicate subtree -/


theorem addDup_find (pid : String) (dup : Step) :
    ∀ l : List Step, (allIdsList l).Nodup → ∀ P, findStepList l pid = some P →
      findStepList (addDuplicatedStepToParent pid dup l) pid =
        some (P.withChildren (P.children ++
          [dup.withOrder (findMaxOrder P.children (some pid) + 1)])) := by
  apply forestRec
  · intro _ P hP
    simp [findStepList] at hP
  · intro i t d c p cs o rest ihc ihr hnd P hP
    obtain ⟨hic, hir, hndc, hndr, hdisj⟩ := nodup_forest_cons hnd
    by_cases hi : i == pid
    · have hie : i = pid := by simpa using hi
      rw [findStepList, if_pos hi] at hP
      have hPv : P = Step.mk i t d c p cs o := by cases hP; rfl
      subst hPv
      subst hie
      simp [addDuplicatedStepToParent, findStepList]
    · rw [findStepList, if_neg hi] at hP
      cases hcs : findStepList cs pid with
      | some Q =>
        rw [hcs] at hP
        have hPQ : P = Q := by cases hP; rfl
        subst hPQ
        have hpidc : pid ∈ allIdsList cs := mem_allIds_of_find hcs
        have hlen : cs.length > 0 := by
          cases cs with
          | nil => simp at hpidc
          | cons a as => simp
        have ih := ihc hndc P hcs
        simp only [addDuplicatedStepToParent, if_neg hi, if_pos hlen, findStepList,
          if_neg hi, ih]
      | none =>
        rw [hcs] at hP
        have hpidc : pid ∉ allIdsList cs := (findStepList_eq_none_iff cs pid).mp hcs
        have hcid : addDuplicatedStepToParent pid dup cs = cs :=
          addDuplicatedStepToParent_of_not_mem pid dup cs hpidc
        have hhead2 : (if i == pid then
              Step.mk i t d c p (cs ++ [dup.withOrder (findMaxOrder cs (some i) + 1)]) o
            else if cs.length > 0 then
              Step.mk i t d c p (addDuplicatedStepToParent pid dup cs) o
            else Step.mk i t d c p cs o) = Step.mk i t d c p cs o := by
          rw [if_neg hi]
          by_cases hl : cs.length > 0
          · rw [if_pos hl, hcid]
          · rw [if_neg hl]
        have ih := ihr hndr P hP
        simp only [addDuplicatedStepToParent, hhead2, findStepList, if_neg hi, hcs, ih]

/-- C4 (amended): `duplicateStep` on a step `X` found in the goal gives
the copy and every copied descendant a fresh identifier drawn from the
injected id supply (so none collides with an existing id), appends
`" (Copy)"` to EVERY copied node's title — the root of the copy AND all
descendants, not the root only — mirrors descriptions, completion flags
and child counts exactly, and inserts the copy as a sibling of `X` (same
parent, or root level) with `order = max(0, existing sibling orders) + 1`. -/
theorem claim4_duplicate_subtree (goal : Goal) (sid : String) (ids : Nat → String)
    (now : Int) (X D : Step)
    (hnd : (allIdsList goal.steps).Nodup)
    (hok : parentOkList none goal.steps = true)
    (hfresh : ∀ k, ids k ∉ allIdsList goal.steps)
    (hfind : findStep goal sid = some X)
    (hD : D = (duplicateStepRecursive ids X 0).1) :
    (∀ j ∈ subtreeIds D, j ∉ allIdsList goal.steps) ∧
    projShape D = addCopyAll (projShape X) ∧
    siblingsOf (duplicateStep goal sid ids now) X.parentId =
      siblingsOf goal X.parentId ++
        [D.withOrder (((siblingsOf goal X.parentId).map Step.order).foldl max 0 + 1)] := by
  subst hD
  refine ⟨?_, projShape_dupStep X ids 0, ?_⟩
  · intro j hj
    obtain ⟨k, _, rfl⟩ := dupStep_ids_subset X ids 0 j hj
    exact hfresh k
  · cases hpid : X.parentId with
    | none =>
      simp only [duplicateStep, hfind, hpid, siblingsOf]
      have hfilter := filter_parentId_eq_self none goal.steps hok
      rw [findMaxOrder, hfilter]
    | some pid =>
      rcases parent_structure_of_find goal.steps sid X hfind none hok with
        ⟨hp, _⟩ | ⟨P, hPmem, hXmem, hp⟩
      · rw [hpid] at hp
        cases hp
      · rw [hpid] at hp
        have hpid2 : P.id = pid := by
          injection hp with h
          exact h.symm
        have hfindP : findStepList goal.steps pid = some P := by
          rw [← hpid2]
          exact find_of_mem_nodes goal.steps hnd P hPmem
        have hchildok : parentOkList (some pid) P.children = true := by
          have := parentOk_children_of_find goal.steps pid P hfindP none hok
          rw [hpid2] at this
          exact this
      -- after duplication, the found parent has the copy appended
        have hfound := addDup_find pid (duplicateStepRecursive ids X 0).1 goal.steps hnd
          P hfindP
        have hfind2 : findStepList goal.steps sid = some X := hfind
        simp only [duplicateStep, findStep, hfind2, hpid, siblingsOf, hfound, hfindP]
        cases P with
        | mk pi pt pd pc pp pcs po =>
          simp only [Step.withChildren_mk, Step.children_mk]
          rw [findMaxOrder, filter_parentId_eq_self (some pid) pcs (by simpa using hchildok)]

/-- C4, counterexample: the descendant titles are NOT kept: duplicating
`a` in the goal `a → b` yields a copy whose child (fresh id `"c1"`) has
title `"B (Copy)"`, not the original `"B"`. -/
theorem claim4_counterexample :
    (findStepList (duplicateStep demoGoal "a" ids0 7).steps "c1").map Step.title =
      some "B (Copy)" ∧ "B (Copy)" ≠ "B" := by
  constructor
  · simp [duplicateStep, findStep, findStepList, demoGoal, stepA, stepB, ids0,
      duplicateStepRecursive, duplicateChildren, findMaxOrder]
  · decide

/-- C4 witness: duplicating the nested step `b` in the goal `a → b`. -/
theorem claim4_witness :
    projShape ((duplicateStepRecursive ids0 stepB 0).1) = addCopyAll (projShape stepB) ∧
    siblingsOf (duplicateStep demoGoal "b" ids0 6) stepB.parentId =
      siblingsOf demoGoal stepB.parentId ++
        [((duplicateStepRecursive ids0 stepB 0).1).withOrder
          (((siblingsOf demoGoal stepB.parentId).map Step.order).foldl max 0 + 1)] := by
  have hnd : (allIdsList demoGoal.steps).Nodup := by
    have h : allIdsList demoGoal.steps = ["a", "b"] := by simp [demoGoal, stepA, stepB]
    rw [h]
    decide
  have hok : parentOkList none demoGoal.steps = true := by simp [demoGoal, stepA, stepB]
  have hfresh : ∀ k, ids0 k ∉ allIdsList demoGoal.steps := by
    intro k
    by_cases hk : k = 0 <;> simp [ids0, hk, demoGoal, stepA, stepB]
  have hfind : findStep demoGoal "b" = some stepB := by
    simp [findStep, demoGoal, findStepList, stepA, stepB]
  have main := claim4_duplicate_subtree demoGoal "b" ids0 6 stepB _ hnd hok hfresh hfind rfl
  exact ⟨main.2.1, main.2.2⟩
